import Mathlib

/-!
Shallow embedding of the section-extraction core of `src/buffett_app.py`
(`extract_sections`, lines 110–152, and the requested-section lookup of
`analyze_10k`, lines 217–222).

Strings are modelled as `List Char`; positions are `Nat` offsets.  The
regular expressions of the source use only case-insensitive literal
characters, `\s+`, `\s*` and `\.*`, so the matcher below implements greedy
backtracking over exactly those token kinds, which coincides with `re`'s
behaviour on these patterns under `re.IGNORECASE`.
-/

/-- The whitespace characters matched by the regex class `\s` and stripped by
`str.strip()` (the ASCII range; filing texts handled here are ASCII). -/
def isPySpace (c : Char) : Bool :=
  c = ' ' || c = '\t' || c = '\n' || c = '\r' || c = '\x0b' || c = '\x0c'

/-- The two character classes occurring in the source's patterns. -/
inductive CClass where
  | ws
  | dot
deriving DecidableEq

def CClass.test : CClass → Char → Bool
  | .ws, c => isPySpace c
  | .dot, c => c = '.'

/-- Regex tokens sufficient for the source's patterns: a case-insensitive
literal character, and greedy `*` / `+` over a character class. -/
inductive RTok where
  | lit (c : Char)
  | star (cls : CClass)
  | plus (cls : CClass)
deriving DecidableEq

/-- A sequence of literal-character tokens. -/
def litsL (s : List Char) : List RTok := s.map RTok.lit

/-- Length of the maximal prefix of `u` consisting of `cls` characters. -/
def runLen (cls : CClass) : List Char → Nat
  | [] => 0
  | c :: rest => if cls.test c then runLen cls rest + 1 else 0

/-- Greedy backtracking matching at the head of `u`: the number of characters
consumed by a match of `pat` starting at position 0 of `u`, if any.  A starred
class tries the longest class run first and backs off, which is `re`'s greedy
semantics. -/
def matchHere : List RTok → List Char → Option Nat
  | [], _ => some 0
  | .lit _ :: _, [] => none
  | .lit c :: ps, d :: rest =>
      if d.toLower = c.toLower then (matchHere ps rest).map (· + 1) else none
  | .star cls :: ps, u =>
      (List.range (runLen cls u + 1)).reverse.findSome?
        (fun k => (matchHere ps (u.drop k)).map (fun m => k + m))
  | .plus _ :: _, [] => none
  | .plus cls :: ps, d :: rest =>
      if cls.test d then
        ((List.range (runLen cls rest + 1)).reverse.findSome?
          (fun k => (matchHere ps (rest.drop k)).map (fun m => k + m))).map (· + 1)
      else none

/-- `re.search`: the leftmost match of `pat` in `u`, as `(start, length)`. -/
def findFirst (pat : List RTok) : List Char → Option (Nat × Nat)
  | [] => (matchHere pat []).map (fun n => (0, n))
  | c :: rest =>
      match matchHere pat (c :: rest) with
      | some n => some (0, n)
      | none => (findFirst pat rest).map (fun p => (p.1 + 1, p.2))

/-- `re.finditer`'s scan: non-overlapping matches from position `pos` on,
left to right, resuming after the end of each match (advancing one position
past a zero-width match).  The fuel argument only bounds the recursion; it
never runs out when instantiated as in `findAll`. -/
def findAllFrom (pat : List RTok) (text : List Char) : Nat → Nat → List (Nat × Nat)
  | 0, _ => []
  | fuel + 1, pos =>
      if pos > text.length then []
      else
        match findFirst pat (text.drop pos) with
        | none => []
        | some (s, n) => (pos + s, n) :: findAllFrom pat text fuel (pos + s + max n 1)

/-- `list(re.finditer(pat, text))`, as `(start, length)` pairs. -/
def findAll (pat : List RTok) (text : List Char) : List (Nat × Nat) :=
  findAllFrom pat text (text.length + 1) 0

def wsPlus : RTok := RTok.plus CClass.ws
def wsStar : RTok := RTok.star CClass.ws
def dotStar : RTok := RTok.star CClass.dot

/-- `item\s+1\.*\s*business` -/
def startBusiness : List RTok :=
  litsL "item".toList ++ [wsPlus] ++ litsL "1".toList ++ [dotStar, wsStar]
    ++ litsL "business".toList

/-- `item\s+1a` -/
def endBusiness : List RTok := litsL "item".toList ++ [wsPlus] ++ litsL "1a".toList

/-- `item\s+1a\.*\s*risk\s*factors` -/
def startRisk : List RTok :=
  litsL "item".toList ++ [wsPlus] ++ litsL "1a".toList ++ [dotStar, wsStar]
    ++ litsL "risk".toList ++ [wsStar] ++ litsL "factors".toList

/-- `item\s+1b` -/
def endRisk : List RTok := litsL "item".toList ++ [wsPlus] ++ litsL "1b".toList

/-- `item\s+7\.*\s*management` -/
def startMda : List RTok :=
  litsL "item".toList ++ [wsPlus] ++ litsL "7".toList ++ [dotStar, wsStar]
    ++ litsL "management".toList

/-- `item\s+7a` -/
def endMda : List RTok := litsL "item".toList ++ [wsPlus] ++ litsL "7a".toList

/-- `item\s+7a` -/
def startQqd : List RTok := litsL "item".toList ++ [wsPlus] ++ litsL "7a".toList

/-- `item\s+8` -/
def endQqd : List RTok := litsL "item".toList ++ [wsPlus] ++ litsL "8".toList

/-- `item\s+8` -/
def startFin : List RTok := litsL "item".toList ++ [wsPlus] ++ litsL "8".toList

/-- `item\s+9` -/
def endFin : List RTok := litsL "item".toList ++ [wsPlus] ++ litsL "9".toList

/-- A Section Specification entry: `(start_pattern, canonical_name, end_pattern)`. -/
abbrev Entry := List RTok × String × List RTok

/-- The `patterns` table of `extract_sections` (source lines 119–125). -/
def patterns : List Entry :=
  [ (startBusiness, "Business", endBusiness),
    (startRisk, "Risk Factors", endRisk),
    (startMda, "Management's Discussion and Analysis", endMda),
    (startQqd, "Quantitative and Qualitative Disclosures", endQqd),
    (startFin, "Financial Statements", endFin) ]

/-- Python `str.strip()`: remove leading and trailing whitespace. -/
def pyStrip (l : List Char) : List Char :=
  ((l.dropWhile isPySpace).reverse.dropWhile isPySpace).reverse

/-- The span computed for one entry (source lines 130–139): the start of the
*last* `start_pattern` match, and the end given by the first `end_pattern`
match in `text[start:]`, or the end of the text if none. -/
def sectionSpan (sp ep : List RTok) (text : List Char) : Option (Nat × Nat) :=
  match (findAll sp text).getLast? with
  | none => none
  | some m =>
      match findFirst ep (text.drop m.1) with
      | some em => some (m.1, m.1 + em.1)
      | none => some (m.1, text.length)

/-- One iteration of the per-entry loop (source lines 127–146): skip the entry
when its start pattern has no match, otherwise store the stripped slice under
the canonical name.  The five canonical names are pairwise distinct, so
appending is the same as Python's dict insertion here. -/
def processEntry (text : List Char) (sections : List (String × List Char))
    (e : Entry) : List (String × List Char) :=
  match sectionSpan e.1 e.2.2 text with
  | none => sections
  | some se => sections ++ [(e.2.1, pyStrip ((text.take se.2).drop se.1))]

/-- `extract_sections` (source lines 110–152). -/
def extract_sections (text : List Char) : List (String × List Char) :=
  patterns.foldl (processEntry text) []

/-- Python `str.lower()` (ASCII names), mapping `Char.toLower` over the
characters. -/
def pyLower (s : String) : String := ⟨s.data.map Char.toLower⟩

/-- Lookup in a Python dict built by successive insertion (a later duplicate
key overwrites an earlier one, hence the reversed search). -/
def pyDictGet (l : List (String × List Char)) (key : String) : Option (List Char) :=
  (l.reverse.find? (fun kv => kv.1 == key)).map Prod.snd

/-- The requested-section lookup of `analyze_10k` (source lines 217–222):
build a lowercase-keyed view of the extracted map and look up the lowercased
requested name; `none` models the 404 "Section not found" branch. -/
def lookup_section (sections : List (String × List Char)) (requested : String) :
    Option (List Char) :=
  pyDictGet (sections.map (fun kv => (pyLower kv.1, kv.2))) (pyLower requested)

/-! ### Predicates used by the proofs below -/

/-- No adjacent pair of characters lowering to 'i','t' anywhere in `w`. -/
def NoIT (w : List Char) : Prop :=
  ∀ w₁ x y v, w = w₁ ++ x :: y :: v → x.toLower = 'i' → y.toLower = 't' → False

/-- Such a pair appears nowhere except possibly at the very front. -/
def NoIntIT (w : List Char) : Prop :=
  ∀ w₁ x y v, w = w₁ ++ x :: y :: v → w₁ ≠ [] → x.toLower = 'i' → y.toLower = 't' → False

def HeadNotT (w : List Char) : Prop :=
  ∀ x, w.head? = some x → ¬ x.toLower = 't'

def LastNotI (w : List Char) : Prop :=
  ∀ x, w.getLast? = some x → ¬ x.toLower = 'i'

def GoodSeg (w : List Char) : Prop := NoIT w ∧ HeadNotT w ∧ LastNotI w

def noITb (s : List Char) : Bool :=
  (s.zip s.tail).all (fun p => !(p.1.toLower = 'i' && p.2.toLower = 't'))

def headNotTb (s : List Char) : Bool :=
  match s with
  | [] => true
  | c :: _ => !(c.toLower = 't')

def lastNotIb (s : List Char) : Bool :=
  match s.getLast? with
  | none => true
  | some c => !(c.toLower = 'i')

def SegGood (p : List RTok) : Prop :=
  ∀ u m, matchHere p u = some m → GoodSeg (u.take m)

/-- Facts about the region matched by a start pattern: it is at least two
characters long, its strict interior contains no (case-insensitive)
occurrence of "it", and it does not end in an 'i'. -/
def BodyShape (p : List RTok) : Prop :=
  ∀ u n, matchHere p u = some n →
    2 ≤ n ∧ n ≤ u.length ∧ NoIntIT (u.take n) ∧ LastNotI (u.take n)

/-- Every pattern of the table begins with the (case-insensitive) literals
"i", "t". -/
def HeadShape (p : List RTok) : Prop :=
  ∀ u n, matchHere p u = some n →
    ∃ x y t, u = x :: y :: t ∧ x.toLower = 'i' ∧ y.toLower = 't'

def SegEndOK (p : List RTok) : Prop :=
  ∀ u m, matchHere p u = some m →
    u.take m ≠ [] ∧ ∀ x, (u.take m).getLast? = some x → isPySpace x = false

/-! ### Character-level facts -/

theorem char_toLower_cases (c : Char) :
    c.toLower = c ∨ (65 ≤ c.toNat ∧ c.toNat ≤ 90 ∧ c.toLower.toNat = c.toNat + 32) := by
  have hdef : c.toLower =
      if c.toNat ≥ 65 ∧ c.toNat ≤ 90 then Char.ofNat (c.toNat + 32) else c := rfl
  rw [hdef]
  split
  · next h =>
    right
    refine ⟨h.1, h.2, ?_⟩
    have hv : (c.toNat + 32).isValidChar := Or.inl (by omega)
    rw [Char.ofNat, dif_pos hv]
    rfl
  · left
    rfl

theorem isPySpace_elim {c : Char} (h : isPySpace c = true) :
    c = ' ' ∨ c = '\t' ∨ c = '\n' ∨ c = '\r' ∨ c = '\x0b' ∨ c = '\x0c' := by
  simp only [isPySpace, Bool.or_eq_true, decide_eq_true_eq] at h
  tauto

theorem isPySpace_toLower_self {c : Char} (h : isPySpace c = true) : c.toLower = c := by
  rcases isPySpace_elim h with h | h | h | h | h | h <;> subst h <;> decide

theorem isPySpace_toNat_le {c : Char} (h : isPySpace c = true) : c.toNat ≤ 32 := by
  rcases isPySpace_elim h with h | h | h | h | h | h <;> subst h <;> decide

theorem isPySpace_of_toLower_space {x c : Char} (hc : isPySpace c = true)
    (h : x.toLower = c) : isPySpace x = true := by
  rcases char_toLower_cases x with hx | ⟨_, _, hx⟩
  · rw [hx] at h
    rwa [h]
  · exfalso
    have h32 := isPySpace_toNat_le hc
    rw [h] at hx
    omega

theorem isPySpace_congr_toLower {x y : Char} (h : x.toLower = y.toLower) :
    isPySpace x = isPySpace y := by
  have dir : ∀ a b : Char, a.toLower = b.toLower → isPySpace b = true → isPySpace a = true := by
    intro a b hab hb
    exact isPySpace_of_toLower_space hb (by rw [hab, isPySpace_toLower_self hb])
  cases hy : isPySpace y
  · cases hx : isPySpace x
    · rfl
    · rw [dir y x h.symm hx] at hy
      exact hy.symm ▸ rfl
  · exact dir x y h hy

theorem not_pySpace_of_toLower {x c : Char} (h : x.toLower = c) (hc : isPySpace c = false) :
    isPySpace x = false := by
  cases hx : isPySpace x
  · rfl
  · rw [isPySpace_toLower_self hx] at h
    subst h
    rw [hx] at hc
    exact hc

theorem char_dot_of_toLower {x : Char} (h : x.toLower = '.') : x = '.' := by
  rcases char_toLower_cases x with hx | ⟨h65, _, hx⟩
  · rwa [hx] at h
  · exfalso
    rw [h] at hx
    revert hx
    simp
    omega

theorem CClass.test_congr {cls : CClass} {x y : Char} (h : x.toLower = y.toLower) :
    cls.test x = cls.test y := by
  cases cls
  · exact isPySpace_congr_toLower h
  · show decide (x = '.') = decide (y = '.')
    have dir : ∀ a b : Char, a.toLower = b.toLower → b = '.' → a = '.' := by
      intro a b hab hb
      subst hb
      exact char_dot_of_toLower (by rw [hab]; decide)
    by_cases hx : x = '.'
    · have hy : y = '.' := dir y x h.symm hx
      rw [hx, hy]
    · by_cases hy : y = '.'
      · exact absurd (dir x y h hy) hx
      · simp [hx, hy]

theorem not_dot_of_toLower {x c : Char} (h : x.toLower = c) (hc : ¬ c = '.') : ¬ x = '.' := by
  intro hx
  subst hx
  apply hc
  rw [← h]
  decide

/-! ### Decomposition lemmas for the matcher -/

theorem runLen_le (cls : CClass) : ∀ u : List Char, runLen cls u ≤ u.length
  | [] => Nat.le_refl 0
  | c :: rest => by
    simp only [runLen]
    split
    · exact Nat.succ_le_succ (runLen_le cls rest)
    · exact Nat.zero_le _

theorem take_all_of_le_runLen (cls : CClass) :
    ∀ (u : List Char) (k : Nat), k ≤ runLen cls u → ∀ c ∈ u.take k, cls.test c = true := by
  intro u
  induction u with
  | nil => intro k _ c hc; simp at hc
  | cons d rest ih =>
    intro k hk c hc
    cases k with
    | zero => simp at hc
    | succ k' =>
      simp only [runLen] at hk
      split at hk
      · next hd =>
        rcases List.mem_cons.mp (by simpa using hc) with h | h
        · exact h ▸ hd
        · exact ih k' (Nat.le_of_succ_le_succ hk) c h
      · omega

theorem matchHere_nil_some {u : List Char} {n : Nat}
    (h : matchHere [] u = some n) : n = 0 := by
  simp [matchHere] at h
  omega

theorem matchHere_lit_some {c : Char} {ps : List RTok} {u : List Char} {n : Nat}
    (h : matchHere (RTok.lit c :: ps) u = some n) :
    ∃ x t m, u = x :: t ∧ x.toLower = c.toLower ∧ matchHere ps t = some m ∧ n = m + 1 := by
  cases u with
  | nil => simp [matchHere] at h
  | cons x t =>
    simp only [matchHere] at h
    split at h
    · next hx =>
      cases hm : matchHere ps t with
      | none => rw [hm] at h; simp at h
      | some m =>
        rw [hm] at h
        simp only [Option.map_some', Option.some.injEq] at h
        exact ⟨x, t, m, rfl, hx, hm, h.symm⟩
    · simp at h

theorem matchHere_litsL_some :
    ∀ (s : List Char) {ps : List RTok} {u : List Char} {n : Nat},
      matchHere (litsL s ++ ps) u = some n →
      ∃ a t m, u = a ++ t ∧ List.Forall₂ (fun x c => x.toLower = c.toLower) a s ∧
        matchHere ps t = some m ∧ n = a.length + m := by
  intro s
  induction s with
  | nil =>
    intro ps u n h
    exact ⟨[], u, n, rfl, List.Forall₂.nil, h, by simp⟩
  | cons c s ih =>
    intro ps u n h
    have h' : matchHere (RTok.lit c :: (litsL s ++ ps)) u = some n := h
    obtain ⟨x, t, m, rfl, hx, ht, rfl⟩ := matchHere_lit_some h'
    obtain ⟨a, t', m', rfl, hf, hm, rfl⟩ := ih ht
    refine ⟨x :: a, t', m', rfl, List.Forall₂.cons hx hf, hm, ?_⟩
    simp
    omega

theorem matchHere_star_some {cls : CClass} {ps : List RTok} {u : List Char} {n : Nat}
    (h : matchHere (RTok.star cls :: ps) u = some n) :
    ∃ k m, k ≤ u.length ∧ (∀ c ∈ u.take k, cls.test c = true) ∧
      matchHere ps (u.drop k) = some m ∧ n = k + m := by
  simp only [matchHere] at h
  obtain ⟨k, hk, hfk⟩ := List.exists_of_findSome?_eq_some h
  rw [List.mem_reverse, List.mem_range] at hk
  have hk' : k ≤ runLen cls u := Nat.lt_succ_iff.mp hk
  cases hm : matchHere ps (u.drop k) with
  | none => rw [hm] at hfk; simp at hfk
  | some m =>
    rw [hm] at hfk
    simp only [Option.map_some', Option.some.injEq] at hfk
    exact ⟨k, m, Nat.le_trans hk' (runLen_le cls u), take_all_of_le_runLen cls u k hk', hm,
      hfk.symm⟩

theorem matchHere_plus_some {cls : CClass} {ps : List RTok} {u : List Char} {n : Nat}
    (h : matchHere (RTok.plus cls :: ps) u = some n) :
    ∃ k m, 1 ≤ k ∧ k ≤ u.length ∧ (∀ c ∈ u.take k, cls.test c = true) ∧
      matchHere ps (u.drop k) = some m ∧ n = k + m := by
  cases u with
  | nil => simp [matchHere] at h
  | cons d rest =>
    simp only [matchHere] at h
    split at h
    · next hd =>
      cases hin : (List.range (runLen cls rest + 1)).reverse.findSome?
          (fun k => (matchHere ps (rest.drop k)).map (fun m => k + m)) with
      | none => rw [hin] at h; simp at h
      | some n' =>
        rw [hin] at h
        simp only [Option.map_some', Option.some.injEq] at h
        obtain ⟨k, hk, hfk⟩ := List.exists_of_findSome?_eq_some hin
        rw [List.mem_reverse, List.mem_range] at hk
        have hk' : k ≤ runLen cls rest := Nat.lt_succ_iff.mp hk
        cases hm : matchHere ps (rest.drop k) with
        | none => rw [hm] at hfk; simp at hfk
        | some m =>
          rw [hm] at hfk
          simp only [Option.map_some', Option.some.injEq] at hfk
          refine ⟨k + 1, m, by omega, ?_, ?_, ?_, ?_⟩
          · simpa using Nat.succ_le_succ (Nat.le_trans hk' (runLen_le cls rest))
          · intro c hc
            rcases List.mem_cons.mp (by simpa using hc) with h1 | h1
            · exact h1 ▸ hd
            · exact take_all_of_le_runLen cls rest k hk' c h1
          · simpa using hm
          · omega
    · simp at h

theorem matchHere_le :
    ∀ (ps : List RTok) (u : List Char) (n : Nat), matchHere ps u = some n → n ≤ u.length
  | [], _, _, h => by rw [matchHere_nil_some h]; exact Nat.zero_le _
  | .lit c :: ps, u, n, h => by
    obtain ⟨x, t, m, rfl, _, hm, rfl⟩ := matchHere_lit_some h
    have := matchHere_le ps t m hm
    simp
    omega
  | .star cls :: ps, u, n, h => by
    obtain ⟨k, m, hk, _, hm, rfl⟩ := matchHere_star_some h
    have := matchHere_le ps (u.drop k) m hm
    rw [List.length_drop] at this
    omega
  | .plus cls :: ps, u, n, h => by
    obtain ⟨k, m, _, hk, _, hm, rfl⟩ := matchHere_plus_some h
    have := matchHere_le ps (u.drop k) m hm
    rw [List.length_drop] at this
    omega

theorem matchHere_lit_pos {c : Char} {ps : List RTok} {u : List Char} {n : Nat}
    (h : matchHere (RTok.lit c :: ps) u = some n) : 1 ≤ n := by
  obtain ⟨x, t, m, rfl, _, _, rfl⟩ := matchHere_lit_some h
  omega

/-! ### `findFirst` (`re.search`) -/

theorem findFirst_sound {pat : List RTok} :
    ∀ (u : List Char) {s n : Nat}, findFirst pat u = some (s, n) →
      s ≤ u.length ∧ matchHere pat (u.drop s) = some n := by
  intro u
  induction u with
  | nil =>
    intro s n h
    simp only [findFirst] at h
    cases hm : matchHere pat [] with
    | none => rw [hm] at h; simp at h
    | some n' =>
      rw [hm] at h
      simp only [Option.map_some', Option.some.injEq, Prod.mk.injEq] at h
      obtain ⟨rfl, rfl⟩ := h
      exact ⟨Nat.le_refl 0, hm⟩
  | cons c rest ih =>
    intro s n h
    simp only [findFirst] at h
    split at h
    · next n' hm =>
      simp only [Option.some.injEq, Prod.mk.injEq] at h
      obtain ⟨rfl, rfl⟩ := h
      exact ⟨Nat.zero_le _, hm⟩
    · next hm =>
      cases hf : findFirst pat rest with
      | none => rw [hf] at h; simp at h
      | some p =>
        rw [hf] at h
        simp only [Option.map_some', Option.some.injEq, Prod.mk.injEq] at h
        obtain ⟨rfl, rfl⟩ := h
        obtain ⟨h1, h2⟩ := ih hf
        refine ⟨by simp; omega, ?_⟩
        simpa using h2

theorem findFirst_none {pat : List RTok} :
    ∀ (u : List Char), findFirst pat u = none →
      ∀ k, matchHere pat (u.drop k) = none := by
  intro u
  induction u with
  | nil =>
    intro h k
    simp only [findFirst] at h
    rw [List.drop_nil]
    cases hm : matchHere pat [] with
    | none => rfl
    | some n => rw [hm] at h; simp at h
  | cons c rest ih =>
    intro h k
    simp only [findFirst] at h
    split at h
    · simp at h
    · next hm =>
      cases k with
      | zero => exact hm
      | succ k' =>
        have hf : findFirst pat rest = none := by
          cases hf : findFirst pat rest with
          | none => rfl
          | some p => rw [hf] at h; simp at h
        simpa using ih hf k'

theorem findFirst_nil_none {pat : List RTok} (h : matchHere pat [] = none) :
    findFirst pat [] = none := by
  simp only [findFirst, h, Option.map_none']

/-! ### `findAllFrom` (`re.finditer`) -/

theorem findAllFrom_sound {pat : List RTok} {text : List Char} :
    ∀ (fuel pos : Nat) (p : Nat × Nat), p ∈ findAllFrom pat text fuel pos →
      pos ≤ p.1 ∧ p.1 ≤ text.length ∧ matchHere pat (text.drop p.1) = some p.2 := by
  intro fuel
  induction fuel with
  | zero => intro pos p hp; simp [findAllFrom] at hp
  | succ f ih =>
    intro pos p hp
    simp only [findAllFrom] at hp
    split at hp
    · simp at hp
    · next hpos =>
      have hpos' : pos ≤ text.length := Nat.le_of_not_lt hpos
      split at hp
      · simp at hp
      · next s n hf =>
        obtain ⟨h1, h2⟩ := findFirst_sound (text.drop pos) hf
        rw [List.length_drop] at h1
        rw [List.drop_drop] at h2
        rcases List.mem_cons.mp hp with rfl | hmem
        · exact ⟨Nat.le_add_right _ _, by omega, h2⟩
        · obtain ⟨ih1, ih2, ih3⟩ := ih _ p hmem
          exact ⟨by omega, ih2, ih3⟩

/-- After an empty result of the scan, the remaining suffix has no match at
all (given enough fuel and a pattern that cannot match the empty string). -/
theorem findAllFrom_nil {pat : List RTok} {text : List Char}
    (hnil : matchHere pat [] = none) :
    ∀ (fuel pos : Nat), text.length + 1 ≤ fuel + pos →
      findAllFrom pat text fuel pos = [] →
      findFirst pat (text.drop pos) = none := by
  intro fuel
  induction fuel with
  | zero =>
    intro pos hinv _
    have : text.drop pos = [] := List.drop_eq_nil_of_le (by omega)
    rw [this]
    exact findFirst_nil_none hnil
  | succ f _
  =>
    intro pos hinv h
    simp only [findAllFrom] at h
    split at h
    · next hpos =>
      have : text.drop pos = [] := List.drop_eq_nil_of_le (by omega)
      rw [this]
      exact findFirst_nil_none hnil
    · split at h
      · next hf => exact hf
      · simp at h

/-- The last element of the scan is a real match, nothing matches after its
end, and it lies strictly to the right of every earlier element. -/
theorem findAllFrom_last {pat : List RTok} {text : List Char}
    (hnil : matchHere pat [] = none) :
    ∀ (fuel pos : Nat) (ms : List (Nat × Nat)) (m : Nat × Nat),
      text.length + 1 ≤ fuel + pos →
      findAllFrom pat text fuel pos = ms ++ [m] →
      matchHere pat (text.drop m.1) = some m.2 ∧
      findFirst pat (text.drop (m.1 + max m.2 1)) = none ∧
      ∀ q ∈ ms, q.1 < m.1 := by
  intro fuel
  induction fuel with
  | zero =>
    intro pos ms m _ h
    simp [findAllFrom] at h
  | succ f ih =>
    intro pos ms m hinv h
    simp only [findAllFrom] at h
    split at h
    · exact absurd h.symm (by simp)
    · next hpos =>
      split at h
      · exact absurd h.symm (by simp)
      · next s n hf =>
        obtain ⟨h1, h2⟩ := findFirst_sound (text.drop pos) hf
        rw [List.length_drop] at h1
        rw [List.drop_drop] at h2
        cases ms with
        | nil =>
          simp only [List.nil_append, List.cons.injEq] at h
          obtain ⟨rfl, hrec⟩ := h
          refine ⟨h2, ?_, by simp⟩
          exact findAllFrom_nil hnil f (pos + s + max n 1) (by omega) hrec
        | cons q ms' =>
          simp only [List.cons_append, List.cons.injEq] at h
          obtain ⟨rfl, hrec⟩ := h
          obtain ⟨ih1, ih2, ih3⟩ := ih (pos + s + max n 1) ms' m (by omega) hrec
          refine ⟨ih1, ih2, ?_⟩
          intro r hr
          rcases List.mem_cons.mp hr with rfl | hr'
          · have hm : m ∈ findAllFrom pat text f (pos + s + max n 1) := by
              rw [hrec]
              exact List.mem_append_right _ (List.mem_singleton.mpr rfl)
            have := (findAllFrom_sound f (pos + s + max n 1) m hm).1
            omega
          · exact ih3 r hr'

/-- Every pattern of the table starts with a literal, so it cannot match the
empty string. -/
theorem patterns_nil_none :
    ∀ e ∈ patterns, matchHere e.1 [] = none ∧ matchHere e.2.2 [] = none := by
  decide

/-! ### Characterizing the extraction fold -/

theorem foldl_processEntry_fst (text : List Char) :
    ∀ (es : List Entry) (acc : List (String × List Char)),
      (es.foldl (processEntry text) acc).map Prod.fst =
        acc.map Prod.fst ++
          (es.filter (fun e => (sectionSpan e.1 e.2.2 text).isSome)).map (fun e => e.2.1) := by
  intro es
  induction es with
  | nil => intro acc; simp
  | cons e es ih =>
    intro acc
    simp only [List.foldl_cons, List.filter_cons]
    cases hs : sectionSpan e.1 e.2.2 text with
    | none =>
      rw [show processEntry text acc e = acc by simp [processEntry, hs]]
      rw [ih acc]
      simp
    | some se =>
      rw [show processEntry text acc e = acc ++ [(e.2.1, pyStrip ((text.take se.2).drop se.1))]
        by simp [processEntry, hs]]
      rw [ih]
      simp

theorem foldl_processEntry_mem (text : List Char) :
    ∀ (es : List Entry) (acc : List (String × List Char)) (name : String) (v : List Char),
      (name, v) ∈ es.foldl (processEntry text) acc ↔
        (name, v) ∈ acc ∨ ∃ e ∈ es, e.2.1 = name ∧ ∃ s en,
          sectionSpan e.1 e.2.2 text = some (s, en) ∧ v = pyStrip ((text.take en).drop s) := by
  intro es
  induction es with
  | nil =>
    intro acc name v
    simp
  | cons e es ih =>
    intro acc name v
    simp only [List.foldl_cons]
    cases hs : sectionSpan e.1 e.2.2 text with
    | none =>
      rw [show processEntry text acc e = acc by simp [processEntry, hs]]
      rw [ih acc name v]
      constructor
      · rintro (h | h)
        · exact Or.inl h
        · obtain ⟨e', he', hn, hrest⟩ := h
          exact Or.inr ⟨e', List.mem_cons_of_mem _ he', hn, hrest⟩
      · rintro (h | h)
        · exact Or.inl h
        · obtain ⟨e', he', hn, s, en, hspan, hv⟩ := h
          rcases List.mem_cons.mp he' with rfl | he''
          · rw [hs] at hspan
            exact absurd hspan (by simp)
          · exact Or.inr ⟨e', he'', hn, s, en, hspan, hv⟩
    | some se =>
      rw [show processEntry text acc e = acc ++ [(e.2.1, pyStrip ((text.take se.2).drop se.1))]
        by simp [processEntry, hs]]
      rw [ih _ name v]
      simp only [List.mem_append, List.mem_singleton, Prod.mk.injEq]
      constructor
      · rintro ((h | ⟨hn, hv⟩) | h)
        · exact Or.inl h
        · exact Or.inr ⟨e, List.mem_cons_self e es, hn.symm, se.1, se.2,
            (by rw [hs]), hv⟩
        · obtain ⟨e', he', hn, hrest⟩ := h
          exact Or.inr ⟨e', List.mem_cons_of_mem _ he', hn, hrest⟩
      · rintro (h | h)
        · exact Or.inl (Or.inl h)
        · obtain ⟨e', he', hn, s, en, hspan, hv⟩ := h
          rcases List.mem_cons.mp he' with rfl | he''
          · rw [hs] at hspan
            simp only [Option.some.injEq] at hspan
            refine Or.inl (Or.inr ⟨hn.symm, ?_⟩)
            subst hspan
            exact hv
          · exact Or.inr ⟨e', he'', hn, s, en, hspan, hv⟩

/-- The key list of the result: exactly the names whose entry's span exists,
in specification order. -/
theorem extract_sections_keys (text : List Char) :
    (extract_sections text).map Prod.fst =
      (patterns.filter (fun e => (sectionSpan e.1 e.2.2 text).isSome)).map (fun e => e.2.1) := by
  have := foldl_processEntry_fst text patterns []
  simpa [extract_sections] using this

/-- Membership in the result, in terms of the per-entry spans. -/
theorem extract_sections_mem (text : List Char) (name : String) (v : List Char) :
    (name, v) ∈ extract_sections text ↔
      ∃ e ∈ patterns, e.2.1 = name ∧ ∃ s en,
        sectionSpan e.1 e.2.2 text = some (s, en) ∧ v = pyStrip ((text.take en).drop s) := by
  have := foldl_processEntry_mem text patterns [] name v
  simpa [extract_sections] using this

theorem sectionSpan_isSome_iff (sp ep : List RTok) (text : List Char) :
    (sectionSpan sp ep text).isSome = true ↔ findAll sp text ≠ [] := by
  unfold sectionSpan
  cases h : (findAll sp text).getLast? with
  | none =>
    rw [List.getLast?_eq_none_iff] at h
    simp [h]
  | some m =>
    have : findAll sp text ≠ [] := by
      intro hnil
      rw [hnil] at h
      simp at h
    cases hf : findFirst ep (text.drop m.1) <;> simpa [hf]

theorem sectionSpan_none_iff (sp ep : List RTok) (text : List Char) :
    sectionSpan sp ep text = none ↔ findAll sp text = [] := by
  constructor
  · intro h
    by_contra hne
    have := (sectionSpan_isSome_iff sp ep text).mpr hne
    rw [h] at this
    simp at this
  · intro h
    unfold sectionSpan
    rw [h]
    rfl

/-! ### Interior structure of matched headings

Every pattern of the table begins with the literal characters "it"; showing
that the text matched by a start pattern contains no other occurrence of
"i","t" (case-insensitively) lets us prove that no pattern of the table can
match strictly inside a matched heading. -/


theorem goodSeg_nil : GoodSeg [] := by
  refine ⟨?_, ?_, ?_⟩
  · intro w₁ x y v h
    exact absurd h (by simp)
  · intro x h
    simp at h
  · intro x h
    simp at h

theorem goodSeg_of_allNot {w : List Char}
    (h : ∀ c ∈ w, ¬ c.toLower = 'i' ∧ ¬ c.toLower = 't') : GoodSeg w := by
  refine ⟨?_, ?_, ?_⟩
  · intro w₁ x y v heq hx _
    exact (h x (by rw [heq]; simp)).1 hx
  · intro x hx
    exact (h x (List.mem_of_mem_head? (by rw [hx]; simp))).2
  · intro x hx
    exact (h x (List.mem_of_getLast?_eq_some hx)).1

theorem noIT_tail {a : Char} {w : List Char} (h : NoIT (a :: w)) : NoIT w := by
  intro w₁ x y v heq hx hy
  exact h (a :: w₁) x y v (by rw [heq]; rfl) hx hy

theorem headNotT_append {A B : List Char} (hA : HeadNotT A) (hB : HeadNotT B) :
    HeadNotT (A ++ B) := by
  cases A with
  | nil => simpa using hB
  | cons a A' =>
    intro x hx
    simp only [List.cons_append, List.head?_cons, Option.some.injEq] at hx
    exact hx ▸ hA a rfl

theorem lastNotI_append {A B : List Char} (hA : LastNotI A) (hB : LastNotI B) :
    LastNotI (A ++ B) := by
  cases hB' : B with
  | nil => simpa using hA
  | cons b B' =>
    intro x hx
    rw [List.getLast?_append_of_ne_nil A (by simp [hB'])] at hx
    exact hB x (hB' ▸ hx)

theorem noIT_append {A B : List Char} (hA : NoIT A) (hB : NoIT B) (hBh : HeadNotT B) :
    NoIT (A ++ B) := by
  induction A with
  | nil => simpa using hB
  | cons a A' ih =>
    intro w₁ x y v heq hx hy
    cases w₁ with
    | nil =>
      simp only [List.nil_append, List.cons_append, List.cons.injEq] at heq
      obtain ⟨rfl, heq'⟩ := heq
      cases A' with
      | nil =>
        simp only [List.nil_append] at heq'
        exact hBh y (by rw [heq']; rfl) hy
      | cons a' A'' =>
        simp only [List.cons_append, List.cons.injEq] at heq'
        obtain ⟨rfl, _⟩ := heq'
        exact hA [] a a' A'' rfl hx hy
    | cons z w₁' =>
      simp only [List.cons_append, List.cons.injEq] at heq
      obtain ⟨rfl, heq'⟩ := heq
      exact ih (noIT_tail hA) w₁' x y v heq' hx hy

theorem goodSeg_append {A B : List Char} (hA : GoodSeg A) (hB : GoodSeg B) :
    GoodSeg (A ++ B) :=
  ⟨noIT_append hA.1 hB.1 hB.2.1, headNotT_append hA.2.1 hB.2.1,
    lastNotI_append hA.2.2 hB.2.2⟩

/-- Characters of either character class lower to neither 'i' nor 't'. -/
theorem cclass_not_it {cls : CClass} {c : Char} (h : CClass.test cls c = true) :
    ¬ c.toLower = 'i' ∧ ¬ c.toLower = 't' := by
  cases cls with
  | ws =>
    have hself := isPySpace_toLower_self h
    constructor
    · intro hc
      rw [hself] at hc
      subst hc
      exact absurd h (by decide)
    · intro hc
      rw [hself] at hc
      subst hc
      exact absurd h (by decide)
  | dot =>
    have : c = '.' := of_decide_eq_true h
    subst this
    constructor <;> decide

theorem goodSeg_of_cls {cls : CClass} {w : List Char}
    (h : ∀ c ∈ w, CClass.test cls c = true) : GoodSeg w :=
  goodSeg_of_allNot (fun c hc => cclass_not_it (h c hc))

/-! ### The text matched by a literal run -/


theorem pair_mem_zip :
    ∀ (s₁ : List Char) (c₁ c₂ : Char) (sv : List Char),
      (c₁, c₂) ∈ (s₁ ++ c₁ :: c₂ :: sv).zip (s₁ ++ c₁ :: c₂ :: sv).tail := by
  intro s₁
  induction s₁ with
  | nil =>
    intro c₁ c₂ sv
    simp
  | cons a s₁' ih =>
    intro c₁ c₂ sv
    have hne : s₁' ++ c₁ :: c₂ :: sv ≠ [] := by simp
    cases h : s₁' ++ c₁ :: c₂ :: sv with
    | nil => exact absurd h hne
    | cons b X' =>
      simp only [List.cons_append, List.tail_cons, h, List.zip_cons_cons]
      refine List.mem_cons_of_mem _ ?_
      have := ih c₁ c₂ sv
      rw [h] at this
      simpa using this

theorem forall₂_append_decomp {R : Char → Char → Prop} :
    ∀ (w₁ w₂ s : List Char), List.Forall₂ R (w₁ ++ w₂) s →
      ∃ s₁ s₂, s = s₁ ++ s₂ ∧ List.Forall₂ R w₁ s₁ ∧ List.Forall₂ R w₂ s₂ := by
  intro w₁
  induction w₁ with
  | nil =>
    intro w₂ s h
    exact ⟨[], s, rfl, List.Forall₂.nil, h⟩
  | cons a w₁' ih =>
    intro w₂ s h
    cases h with
    | cons hab h' =>
      obtain ⟨s₁, s₂, rfl, hf₁, hf₂⟩ := ih w₂ _ h'
      exact ⟨_ :: s₁, s₂, rfl, List.Forall₂.cons hab hf₁, hf₂⟩

theorem goodSeg_of_forall₂ {s w : List Char}
    (hf : List.Forall₂ (fun x c => x.toLower = c.toLower) w s)
    (h1 : noITb s = true) (h2 : headNotTb s = true) (h3 : lastNotIb s = true) :
    GoodSeg w := by
  refine ⟨?_, ?_, ?_⟩
  · intro w₁ x y v heq hx hy
    subst heq
    obtain ⟨s₁, s₂, rfl, hf₁, hf₂⟩ := forall₂_append_decomp w₁ (x :: y :: v) _ hf
    rw [List.forall₂_cons_left_iff] at hf₂
    obtain ⟨c₁, s₂', hxc, hf₂', rfl⟩ := hf₂
    rw [List.forall₂_cons_left_iff] at hf₂'
    obtain ⟨c₂, sv, hyc, hf₂'', rfl⟩ := hf₂'
    have hmem := pair_mem_zip s₁ c₁ c₂ sv
    have := List.all_eq_true.mp h1 _ hmem
    simp only [Bool.not_eq_true', Bool.and_eq_false_iff, decide_eq_false_iff_not] at this
    rw [hx] at hxc
    rw [hy] at hyc
    rcases this with h | h
    · exact h (by simpa using hxc.symm)
    · exact h (by simpa using hyc.symm)
  · intro x hx
    cases hf with
    | nil => simp at hx
    | cons hxc hf' =>
      simp only [List.head?_cons, Option.some.injEq] at hx
      subst hx
      rename_i c s'
      simp only [headNotTb, Bool.not_eq_true', decide_eq_false_iff_not] at h2
      intro hcontra
      rw [hcontra] at hxc
      exact h2 hxc.symm
  · intro x hx
    rw [List.getLast?_eq_some_iff] at hx
    obtain ⟨w', rfl⟩ := hx
    obtain ⟨s₁, s₂, rfl, hf₁, hf₂⟩ := forall₂_append_decomp w' [x] _ hf
    cases hf₂ with
    | cons hxc hf₂' =>
      cases hf₂' with
      | nil =>
        rename_i c
        simp only [lastNotIb, List.getLast?_concat, Bool.not_eq_true',
          decide_eq_false_iff_not] at h3
        intro hcontra
        rw [hcontra] at hxc
        exact h3 hxc.symm

/-! ### Shape of the region matched by each pattern -/


theorem segGood_nil : SegGood [] := by
  intro u m h
  rw [matchHere_nil_some h]
  simpa using goodSeg_nil

theorem segGood_litsL {s : List Char} {R : List RTok}
    (h1 : noITb s = true) (h2 : headNotTb s = true) (h3 : lastNotIb s = true)
    (hR : SegGood R) : SegGood (litsL s ++ R) := by
  intro u m h
  obtain ⟨a, t, m', rfl, hf, hm, heq⟩ := matchHere_litsL_some s h
  subst heq
  rw [List.take_append]
  exact goodSeg_append (goodSeg_of_forall₂ hf h1 h2 h3) (hR t m' hm)

theorem segGood_star {cls : CClass} {R : List RTok} (hR : SegGood R) :
    SegGood (RTok.star cls :: R) := by
  intro u m h
  obtain ⟨k, m', _, hcls, hm, rfl⟩ := matchHere_star_some h
  rw [List.take_add]
  exact goodSeg_append (goodSeg_of_cls hcls) (hR _ m' hm)

theorem segGood_plus {cls : CClass} {R : List RTok} (hR : SegGood R) :
    SegGood (RTok.plus cls :: R) := by
  intro u m h
  obtain ⟨k, m', _, _, hcls, hm, rfl⟩ := matchHere_plus_some h
  rw [List.take_add]
  exact goodSeg_append (goodSeg_of_cls hcls) (hR _ m' hm)

theorem segGood_litsL_only {s : List Char}
    (h1 : noITb s = true) (h2 : headNotTb s = true) (h3 : lastNotIb s = true) :
    SegGood (litsL s) := by
  have := segGood_litsL h1 h2 h3 segGood_nil
  simpa using this



theorem noIntIT_cons₂ {x y : Char} {w' : List Char} (hy : y.toLower = 't')
    (h : NoIT w') : NoIntIT (x :: y :: w') := by
  intro w₁ p q v heq hne hp hq
  cases w₁ with
  | nil => exact hne rfl
  | cons z w₁' =>
    simp only [List.cons_append, List.cons.injEq] at heq
    obtain ⟨rfl, heq'⟩ := heq
    cases w₁' with
    | nil =>
      simp only [List.nil_append, List.cons.injEq] at heq'
      obtain ⟨rfl, _⟩ := heq'
      have : ('t' : Char) = 'i' := by rw [← hy, hp]
      exact absurd this (by decide)
    | cons z₂ w₁'' =>
      simp only [List.cons_append, List.cons.injEq] at heq'
      obtain ⟨rfl, heq''⟩ := heq'
      exact h w₁'' p q v heq'' hp hq

theorem lastNotI_cons {x : Char} {w : List Char} (hne : w ≠ []) (h : LastNotI w) :
    LastNotI (x :: w) := by
  intro z hz
  rw [show x :: w = [x] ++ w from rfl, List.getLast?_append_of_ne_nil _ hne] at hz
  exact h z hz

theorem bodyShape_of_startsIT {R : List RTok} (hR : SegGood R) :
    BodyShape (RTok.lit 'i' :: RTok.lit 't' :: R) := by
  intro u n h
  have hle := matchHere_le _ u n h
  obtain ⟨x, t, m, rfl, hx, h2, rfl⟩ := matchHere_lit_some h
  obtain ⟨y, t', m', rfl, hy, h3, rfl⟩ := matchHere_lit_some h2
  have hyt : y.toLower = 't' := by rw [hy]; decide
  have hG := hR t' m' h3
  have htake : (x :: y :: t').take (m' + 1 + 1) = x :: y :: t'.take m' := by simp
  refine ⟨by omega, hle, ?_, ?_⟩
  · rw [htake]
    exact noIntIT_cons₂ hyt hG.1
  · rw [htake]
    cases hw : t'.take m' with
    | nil =>
      intro z hz
      simp only [List.getLast?_cons_cons, List.getLast?_singleton, Option.some.injEq] at hz
      subst hz
      intro hc
      rw [hyt] at hc
      exact absurd hc (by decide)
    | cons a w'' =>
      rw [hw] at hG
      exact lastNotI_cons (by simp) (lastNotI_cons (by simp) hG.2.2)

theorem headShape_of_startsIT {R : List RTok} :
    HeadShape (RTok.lit 'i' :: RTok.lit 't' :: R) := by
  intro u n h
  obtain ⟨x, t, m, rfl, hx, h2, _⟩ := matchHere_lit_some h
  obtain ⟨y, t', m', rfl, hy, _, _⟩ := matchHere_lit_some h2
  exact ⟨x, y, t', rfl, by rw [hx]; decide, by rw [hy]; decide⟩

theorem startBusiness_eq :
    startBusiness = RTok.lit 'i' :: RTok.lit 't' ::
      (litsL "em".toList ++ (RTok.plus CClass.ws ::
        (litsL "1".toList ++ (RTok.star CClass.dot :: RTok.star CClass.ws ::
          litsL "business".toList)))) := by decide

theorem startRisk_eq :
    startRisk = RTok.lit 'i' :: RTok.lit 't' ::
      (litsL "em".toList ++ (RTok.plus CClass.ws ::
        (litsL "1a".toList ++ (RTok.star CClass.dot :: RTok.star CClass.ws ::
          (litsL "risk".toList ++ (RTok.star CClass.ws ::
            litsL "factors".toList)))))) := by decide

theorem startMda_eq :
    startMda = RTok.lit 'i' :: RTok.lit 't' ::
      (litsL "em".toList ++ (RTok.plus CClass.ws ::
        (litsL "7".toList ++ (RTok.star CClass.dot :: RTok.star CClass.ws ::
          litsL "management".toList)))) := by decide

theorem startQqd_eq :
    startQqd = RTok.lit 'i' :: RTok.lit 't' ::
      (litsL "em".toList ++ (RTok.plus CClass.ws :: litsL "7a".toList)) := by decide

theorem startFin_eq :
    startFin = RTok.lit 'i' :: RTok.lit 't' ::
      (litsL "em".toList ++ (RTok.plus CClass.ws :: litsL "8".toList)) := by decide

theorem bodyShape_startBusiness : BodyShape startBusiness := by
  rw [startBusiness_eq]
  exact bodyShape_of_startsIT (segGood_litsL (by decide) (by decide) (by decide)
    (segGood_plus (segGood_litsL (by decide) (by decide) (by decide)
      (segGood_star (segGood_star
        (segGood_litsL_only (by decide) (by decide) (by decide)))))))

theorem bodyShape_startRisk : BodyShape startRisk := by
  rw [startRisk_eq]
  exact bodyShape_of_startsIT (segGood_litsL (by decide) (by decide) (by decide)
    (segGood_plus (segGood_litsL (by decide) (by decide) (by decide)
      (segGood_star (segGood_star (segGood_litsL (by decide) (by decide) (by decide)
        (segGood_star (segGood_litsL_only (by decide) (by decide) (by decide)))))))))

theorem bodyShape_startMda : BodyShape startMda := by
  rw [startMda_eq]
  exact bodyShape_of_startsIT (segGood_litsL (by decide) (by decide) (by decide)
    (segGood_plus (segGood_litsL (by decide) (by decide) (by decide)
      (segGood_star (segGood_star
        (segGood_litsL_only (by decide) (by decide) (by decide)))))))

theorem bodyShape_startQqd : BodyShape startQqd := by
  rw [startQqd_eq]
  exact bodyShape_of_startsIT (segGood_litsL (by decide) (by decide) (by decide)
    (segGood_plus (segGood_litsL_only (by decide) (by decide) (by decide))))

theorem bodyShape_startFin : BodyShape startFin := by
  rw [startFin_eq]
  exact bodyShape_of_startsIT (segGood_litsL (by decide) (by decide) (by decide)
    (segGood_plus (segGood_litsL_only (by decide) (by decide) (by decide))))

theorem bodyShape_patterns : ∀ e ∈ patterns, BodyShape e.1 := by
  intro e he
  simp only [patterns, List.mem_cons, List.not_mem_nil, or_false] at he
  rcases he with rfl | rfl | rfl | rfl | rfl
  · exact bodyShape_startBusiness
  · exact bodyShape_startRisk
  · exact bodyShape_startMda
  · exact bodyShape_startQqd
  · exact bodyShape_startFin

theorem headShape_of_item (p : List RTok)
    (hp : ∃ R, p = RTok.lit 'i' :: RTok.lit 't' :: R) : HeadShape p := by
  obtain ⟨R, rfl⟩ := hp
  exact headShape_of_startsIT

theorem endBusiness_eq :
    endBusiness = RTok.lit 'i' :: RTok.lit 't' ::
      (litsL "em".toList ++ (RTok.plus CClass.ws :: litsL "1a".toList)) := by decide

theorem endRisk_eq :
    endRisk = RTok.lit 'i' :: RTok.lit 't' ::
      (litsL "em".toList ++ (RTok.plus CClass.ws :: litsL "1b".toList)) := by decide

theorem endMda_eq :
    endMda = RTok.lit 'i' :: RTok.lit 't' ::
      (litsL "em".toList ++ (RTok.plus CClass.ws :: litsL "7a".toList)) := by decide

theorem endQqd_eq :
    endQqd = RTok.lit 'i' :: RTok.lit 't' ::
      (litsL "em".toList ++ (RTok.plus CClass.ws :: litsL "8".toList)) := by decide

theorem endFin_eq :
    endFin = RTok.lit 'i' :: RTok.lit 't' ::
      (litsL "em".toList ++ (RTok.plus CClass.ws :: litsL "9".toList)) := by decide

theorem headShape_patterns : ∀ e ∈ patterns, HeadShape e.1 ∧ HeadShape e.2.2 := by
  intro e he
  simp only [patterns, List.mem_cons, List.not_mem_nil, or_false] at he
  rcases he with rfl | rfl | rfl | rfl | rfl
  · constructor
    · show HeadShape startBusiness
      rw [startBusiness_eq]
      exact headShape_of_startsIT
    · show HeadShape endBusiness
      rw [endBusiness_eq]
      exact headShape_of_startsIT
  · constructor
    · show HeadShape startRisk
      rw [startRisk_eq]
      exact headShape_of_startsIT
    · show HeadShape endRisk
      rw [endRisk_eq]
      exact headShape_of_startsIT
  · constructor
    · show HeadShape startMda
      rw [startMda_eq]
      exact headShape_of_startsIT
    · show HeadShape endMda
      rw [endMda_eq]
      exact headShape_of_startsIT
  · constructor
    · show HeadShape startQqd
      rw [startQqd_eq]
      exact headShape_of_startsIT
    · show HeadShape endQqd
      rw [endQqd_eq]
      exact headShape_of_startsIT
  · constructor
    · show HeadShape startFin
      rw [startFin_eq]
      exact headShape_of_startsIT
    · show HeadShape endFin
      rw [endFin_eq]
      exact headShape_of_startsIT

/-- No pattern beginning with the literals "it" matches strictly inside the
region matched by a start pattern: the only "item ..." heading inside a
matched heading is the heading itself. -/
theorem interior_no_match {sp probe : List RTok} {text : List Char} {s n r : Nat}
    (hbody : BodyShape sp) (hprobe : HeadShape probe)
    (hm : matchHere sp (text.drop s) = some n)
    (hr1 : 1 ≤ r) (hrn : r < n) :
    matchHere probe (text.drop (s + r)) = none := by
  obtain ⟨h2n, hlen, hNoInt, hLast⟩ := hbody _ _ hm
  cases hcm : matchHere probe (text.drop (s + r)) with
  | none => rfl
  | some n' =>
    exfalso
    obtain ⟨x, y, t, hxy, hx, hy⟩ := hprobe _ _ hcm
    have hdd : (text.drop s).drop r = x :: y :: t := by
      rw [List.drop_drop]
      exact hxy
    have hwlen : ((text.drop s).take n).length = n := by
      rw [List.length_take]
      omega
    have htne : ((text.drop s).take n).take r ≠ [] := by
      intro hnil
      have := congrArg List.length hnil
      rw [List.length_take, hwlen] at this
      simp at this
      omega
    by_cases hlt : r + 1 < n
    · obtain ⟨k, hk⟩ : ∃ k, n - r = k + 2 := ⟨n - r - 2, by omega⟩
      have hw : ((text.drop s).take n).drop r = x :: y :: t.take k := by
        rw [List.drop_take, hdd, hk]
        rfl
      refine hNoInt (((text.drop s).take n).take r) x y (t.take k) ?_ htne hx hy
      rw [← hw]
      exact (List.take_append_drop r _).symm
    · have hr2 : n - r = 1 := by omega
      have hw : ((text.drop s).take n).drop r = [x] := by
        rw [List.drop_take, hdd, hr2]
        rfl
      have hconcat : (text.drop s).take n = ((text.drop s).take n).take r ++ [x] := by
        rw [← hw]
        exact (List.take_append_drop r _).symm
      have := hLast x (by rw [hconcat]; exact List.getLast?_concat _)
      exact this hx

/-! ### A start pattern and its end pattern cannot match at the same offset -/

theorem ws_align :
    ∀ (v : List Char) (j₁ j₂ : Nat) (x₁ x₂ : Char) (t₁ t₂ : List Char),
      (∀ c ∈ v.take j₁, isPySpace c = true) → (∀ c ∈ v.take j₂, isPySpace c = true) →
      v.drop j₁ = x₁ :: t₁ → v.drop j₂ = x₂ :: t₂ →
      isPySpace x₁ = false → isPySpace x₂ = false → j₁ = j₂ := by
  intro v
  induction v with
  | nil =>
    intro j₁ j₂ x₁ x₂ t₁ t₂ _ _ h1 _ _ _
    simp at h1
  | cons c v' ih =>
    intro j₁ j₂ x₁ x₂ t₁ t₂ hw₁ hw₂ hd₁ hd₂ hx₁ hx₂
    cases j₁ with
    | zero =>
      cases j₂ with
      | zero => rfl
      | succ j₂' =>
        exfalso
        simp only [List.drop_zero, List.cons.injEq] at hd₁
        have hcws : isPySpace c = true := hw₂ c (by simp)
        rw [hd₁.1] at hcws
        rw [hx₁] at hcws
        exact Bool.false_ne_true hcws
    | succ j₁' =>
      cases j₂ with
      | zero =>
        exfalso
        simp only [List.drop_zero, List.cons.injEq] at hd₂
        have hcws : isPySpace c = true := hw₁ c (by simp)
        rw [hd₂.1] at hcws
        rw [hx₂] at hcws
        exact Bool.false_ne_true hcws
      | succ j₂' =>
        have := ih j₁' j₂' x₁ x₂ t₁ t₂
          (fun c' hc' => hw₁ c' (by simp [hc']))
          (fun c' hc' => hw₂ c' (by simp [hc']))
          (by simpa using hd₁) (by simpa using hd₂) hx₁ hx₂
        omega

/-- The first character of text matched by `\.*\s*<lit> ...` is a dot, a
space, or the literal itself. -/
theorem head_of_dot_ws_lit {b : Char} {R : List RTok} {u : List Char} {m : Nat}
    (h : matchHere (RTok.star CClass.dot :: RTok.star CClass.ws :: RTok.lit b :: R) u
      = some m) :
    ∃ c₀ t₀, u = c₀ :: t₀ ∧ (c₀ = '.' ∨ isPySpace c₀ = true ∨ c₀.toLower = b.toLower) := by
  obtain ⟨k₁, m₁, _, hdots, h₁, rfl⟩ := matchHere_star_some h
  obtain ⟨k₂, m₂, _, hws, h₂, rfl⟩ := matchHere_star_some h₁
  obtain ⟨xb, t, m₃, hxb_eq, hxb, _, _⟩ := matchHere_lit_some h₂
  cases hk₁ : k₁ with
  | succ k₁' =>
    cases hu : u with
    | nil =>
      rw [hu] at hxb_eq
      simp at hxb_eq
    | cons c₀ t₀ =>
      refine ⟨c₀, t₀, rfl, Or.inl ?_⟩
      have hmem : c₀ ∈ u.take k₁ := by
        rw [hu, hk₁]
        simp
      exact of_decide_eq_true (hdots c₀ hmem)
  | zero =>
    subst hk₁
    rw [List.drop_zero] at hws h₂ hxb_eq
    cases hk₂ : k₂ with
    | succ k₂' =>
      cases hu : u with
      | nil =>
        rw [hu] at hxb_eq
        simp at hxb_eq
      | cons c₀ t₀ =>
        refine ⟨c₀, t₀, rfl, Or.inr (Or.inl ?_)⟩
        have hmem : c₀ ∈ u.take k₂ := by
          rw [hu, hk₂]
          simp
        exact hws c₀ hmem
    | zero =>
      subst hk₂
      rw [List.drop_zero] at hxb_eq
      exact ⟨xb, t, hxb_eq, Or.inr (Or.inr hxb)⟩

/-- Both patterns consume "item", the same (maximal) whitespace run, and then
a literal each; those two literals see the same character of the text. -/
theorem item_ws_align {c₁ c₂ : Char} {T₁ T₂ : List RTok} {u : List Char} {n₁ n₂ : Nat}
    (h₁ : matchHere (litsL "item".toList ++ (RTok.plus CClass.ws :: RTok.lit c₁ :: T₁)) u
      = some n₁)
    (h₂ : matchHere (litsL "item".toList ++ (RTok.plus CClass.ws :: RTok.lit c₂ :: T₂)) u
      = some n₂)
    (hns₁ : isPySpace c₁.toLower = false) (hns₂ : isPySpace c₂.toLower = false) :
    ∃ (d : Char) (t' : List Char) (m₁ m₂ : Nat),
      d.toLower = c₁.toLower ∧ d.toLower = c₂.toLower ∧
      matchHere T₁ t' = some m₁ ∧ matchHere T₂ t' = some m₂ := by
  obtain ⟨a₁, t₁, m₁₀, he₁, hf₁, hm₁, _⟩ := matchHere_litsL_some _ h₁
  obtain ⟨a₂, t₂, m₂₀, he₂, hf₂, hm₂, _⟩ := matchHere_litsL_some _ h₂
  have hl₁ : a₁.length = 4 := by simpa using List.Forall₂.length_eq hf₁
  have hl₂ : a₂.length = 4 := by simpa using List.Forall₂.length_eq hf₂
  have heq : a₁ = a₂ ∧ t₁ = t₂ := by
    apply List.append_inj (by rw [← he₁, ← he₂]) (by omega)
  obtain ⟨rfl, rfl⟩ := heq
  obtain ⟨k₁, mm₁, hk₁, _, hws₁, hT₁, _⟩ := matchHere_plus_some hm₁
  obtain ⟨k₂, mm₂, hk₂, _, hws₂, hT₂, _⟩ := matchHere_plus_some hm₂
  obtain ⟨d₁, t₁', mmm₁, hd₁eq, hd₁, hT₁', _⟩ := matchHere_lit_some hT₁
  obtain ⟨d₂, t₂', mmm₂, hd₂eq, hd₂, hT₂', _⟩ := matchHere_lit_some hT₂
  have hws₁' : ∀ c ∈ t₁.take k₁, isPySpace c = true := fun c hc => hws₁ c hc
  have hws₂' : ∀ c ∈ t₁.take k₂, isPySpace c = true := fun c hc => hws₂ c hc
  have hns₁' : isPySpace d₁ = false := not_pySpace_of_toLower hd₁ hns₁
  have hns₂' : isPySpace d₂ = false := not_pySpace_of_toLower hd₂ hns₂
  have hkk : k₁ = k₂ := ws_align t₁ k₁ k₂ d₁ d₂ t₁' t₂' hws₁' hws₂' hd₁eq hd₂eq hns₁' hns₂'
  subst hkk
  rw [hd₁eq] at hd₂eq
  simp only [List.cons.injEq] at hd₂eq
  obtain ⟨rfl, rfl⟩ := hd₂eq
  exact ⟨d₁, t₁', mmm₁, mmm₂, hd₁, hd₂, hT₁', hT₂'⟩

theorem excl_business {u : List Char} {n n' : Nat}
    (h₁ : matchHere startBusiness u = some n) (h₂ : matchHere endBusiness u = some n') :
    False := by
  have h₁' : matchHere (litsL "item".toList ++ (RTok.plus CClass.ws :: RTok.lit '1' ::
      (RTok.star CClass.dot :: RTok.star CClass.ws :: litsL "business".toList))) u
      = some n := h₁
  have h₂' : matchHere (litsL "item".toList ++ (RTok.plus CClass.ws :: RTok.lit '1' ::
      litsL "a".toList)) u = some n' := h₂
  obtain ⟨d, t', m₁, m₂, hd₁, hd₂, hm₁, hm₂⟩ := item_ws_align h₁' h₂' (by decide) (by decide)
  have hm₁' : matchHere (RTok.star CClass.dot :: RTok.star CClass.ws :: RTok.lit 'b' ::
      litsL "usiness".toList) t' = some m₁ := hm₁
  obtain ⟨c₀, t₀, rfl, hcase⟩ := head_of_dot_ws_lit hm₁'
  have hm₂' : matchHere (RTok.lit 'a' :: ([] : List RTok)) (c₀ :: t₀) = some m₂ := hm₂
  obtain ⟨x, t, m, hx_eq, hx, _, _⟩ := matchHere_lit_some hm₂'
  simp only [List.cons.injEq] at hx_eq
  obtain ⟨heq, _⟩ := hx_eq
  rw [← heq] at hx
  rcases hcase with hc | hc | hc
  · subst hc
    exact absurd hx (by decide)
  · have hnot := not_pySpace_of_toLower hx (by decide)
    rw [hnot] at hc
    exact absurd hc (by decide)
  · rw [hx] at hc
    exact absurd hc (by decide)

theorem excl_risk {u : List Char} {n n' : Nat}
    (h₁ : matchHere startRisk u = some n) (h₂ : matchHere endRisk u = some n') :
    False := by
  have h₁' : matchHere (litsL "item".toList ++ (RTok.plus CClass.ws :: RTok.lit '1' ::
      (RTok.lit 'a' :: (RTok.star CClass.dot :: RTok.star CClass.ws ::
        (litsL "risk".toList ++ (RTok.star CClass.ws :: litsL "factors".toList)))))) u
      = some n := h₁
  have h₂' : matchHere (litsL "item".toList ++ (RTok.plus CClass.ws :: RTok.lit '1' ::
      (RTok.lit 'b' :: ([] : List RTok)))) u = some n' := h₂
  obtain ⟨d, t', m₁, m₂, _, _, hm₁, hm₂⟩ := item_ws_align h₁' h₂' (by decide) (by decide)
  obtain ⟨x₁, t₁, mm₁, he₁, hx₁, _, _⟩ := matchHere_lit_some hm₁
  obtain ⟨x₂, t₂, mm₂, he₂, hx₂, _, _⟩ := matchHere_lit_some hm₂
  rw [he₁] at he₂
  simp only [List.cons.injEq] at he₂
  obtain ⟨heq, _⟩ := he₂
  rw [← heq] at hx₂
  rw [hx₁] at hx₂
  exact absurd hx₂ (by decide)

theorem excl_mda {u : List Char} {n n' : Nat}
    (h₁ : matchHere startMda u = some n) (h₂ : matchHere endMda u = some n') :
    False := by
  have h₁' : matchHere (litsL "item".toList ++ (RTok.plus CClass.ws :: RTok.lit '7' ::
      (RTok.star CClass.dot :: RTok.star CClass.ws :: litsL "management".toList))) u
      = some n := h₁
  have h₂' : matchHere (litsL "item".toList ++ (RTok.plus CClass.ws :: RTok.lit '7' ::
      litsL "a".toList)) u = some n' := h₂
  obtain ⟨d, t', m₁, m₂, hd₁, hd₂, hm₁, hm₂⟩ := item_ws_align h₁' h₂' (by decide) (by decide)
  have hm₁' : matchHere (RTok.star CClass.dot :: RTok.star CClass.ws :: RTok.lit 'm' ::
      litsL "anagement".toList) t' = some m₁ := hm₁
  obtain ⟨c₀, t₀, rfl, hcase⟩ := head_of_dot_ws_lit hm₁'
  have hm₂' : matchHere (RTok.lit 'a' :: ([] : List RTok)) (c₀ :: t₀) = some m₂ := hm₂
  obtain ⟨x, t, m, hx_eq, hx, _, _⟩ := matchHere_lit_some hm₂'
  simp only [List.cons.injEq] at hx_eq
  obtain ⟨heq, _⟩ := hx_eq
  rw [← heq] at hx
  rcases hcase with hc | hc | hc
  · subst hc
    exact absurd hx (by decide)
  · have hnot := not_pySpace_of_toLower hx (by decide)
    rw [hnot] at hc
    exact absurd hc (by decide)
  · rw [hx] at hc
    exact absurd hc (by decide)

theorem excl_qqd {u : List Char} {n n' : Nat}
    (h₁ : matchHere startQqd u = some n) (h₂ : matchHere endQqd u = some n') :
    False := by
  have h₁' : matchHere (litsL "item".toList ++ (RTok.plus CClass.ws :: RTok.lit '7' ::
      litsL "a".toList)) u = some n := h₁
  have h₂' : matchHere (litsL "item".toList ++ (RTok.plus CClass.ws :: RTok.lit '8' ::
      ([] : List RTok))) u = some n' := h₂
  obtain ⟨d, t', m₁, m₂, hd₁, hd₂, _, _⟩ := item_ws_align h₁' h₂' (by decide) (by decide)
  rw [hd₁] at hd₂
  exact absurd hd₂ (by decide)

theorem excl_fin {u : List Char} {n n' : Nat}
    (h₁ : matchHere startFin u = some n) (h₂ : matchHere endFin u = some n') :
    False := by
  have h₁' : matchHere (litsL "item".toList ++ (RTok.plus CClass.ws :: RTok.lit '8' ::
      ([] : List RTok))) u = some n := h₁
  have h₂' : matchHere (litsL "item".toList ++ (RTok.plus CClass.ws :: RTok.lit '9' ::
      ([] : List RTok))) u = some n' := h₂
  obtain ⟨d, t', m₁, m₂, hd₁, hd₂, _, _⟩ := item_ws_align h₁' h₂' (by decide) (by decide)
  rw [hd₁] at hd₂
  exact absurd hd₂ (by decide)

/-- For every entry of the table, the start pattern and the end pattern can
never match at the same position. -/
theorem patterns_excl : ∀ e ∈ patterns, ∀ (u : List Char) (n n' : Nat),
    matchHere e.1 u = some n → matchHere e.2.2 u = some n' → False := by
  intro e he
  simp only [patterns, List.mem_cons, List.not_mem_nil, or_false] at he
  rcases he with rfl | rfl | rfl | rfl | rfl
  · exact fun u n n' h₁ h₂ => excl_business h₁ h₂
  · exact fun u n n' h₁ h₂ => excl_risk h₁ h₂
  · exact fun u n n' h₁ h₂ => excl_mda h₁ h₂
  · exact fun u n n' h₁ h₂ => excl_qqd h₁ h₂
  · exact fun u n n' h₁ h₂ => excl_fin h₁ h₂

/-! ### Case-insensitivity: matching only depends on lowercased text -/

theorem runLen_congr (cls : CClass) :
    ∀ (u v : List Char), u.map Char.toLower = v.map Char.toLower →
      runLen cls u = runLen cls v := by
  intro u
  induction u with
  | nil =>
    intro v h
    cases v with
    | nil => rfl
    | cons y v' => simp at h
  | cons x u' ih =>
    intro v h
    cases v with
    | nil => simp at h
    | cons y v' =>
      simp only [List.map_cons, List.cons.injEq] at h
      obtain ⟨hxy, h'⟩ := h
      simp only [runLen]
      rw [CClass.test_congr hxy, ih v' h']

theorem matchHere_toLower_congr :
    ∀ (ps : List RTok) (u v : List Char),
      u.map Char.toLower = v.map Char.toLower → matchHere ps u = matchHere ps v
  | [], _, _, _ => rfl
  | .lit c :: ps, u, v, h => by
    cases u with
    | nil =>
      cases v with
      | nil => rfl
      | cons y v' => simp at h
    | cons x u' =>
      cases v with
      | nil => simp at h
      | cons y v' =>
        simp only [List.map_cons, List.cons.injEq] at h
        obtain ⟨hxy, h'⟩ := h
        simp only [matchHere]
        rw [hxy, matchHere_toLower_congr ps u' v' h']
  | .star cls :: ps, u, v, h => by
    simp only [matchHere]
    rw [runLen_congr cls u v h]
    congr 1
    funext k
    rw [matchHere_toLower_congr ps (u.drop k) (v.drop k)
      (by rw [List.map_drop, List.map_drop, h])]
  | .plus cls :: ps, u, v, h => by
    cases u with
    | nil =>
      cases v with
      | nil => rfl
      | cons y v' => simp at h
    | cons x u' =>
      cases v with
      | nil => simp at h
      | cons y v' =>
        simp only [List.map_cons, List.cons.injEq] at h
        obtain ⟨hxy, h'⟩ := h
        simp only [matchHere]
        rw [CClass.test_congr hxy, runLen_congr cls u' v' h']
        have hfun : (fun k => Option.map (fun m => k + m) (matchHere ps (u'.drop k)))
            = (fun k => Option.map (fun m => k + m) (matchHere ps (v'.drop k))) := by
          funext k
          rw [matchHere_toLower_congr ps (u'.drop k) (v'.drop k)
            (by rw [List.map_drop, List.map_drop, h'])]
        rw [hfun]

theorem findFirst_toLower_congr (pat : List RTok) :
    ∀ (u v : List Char), u.map Char.toLower = v.map Char.toLower →
      findFirst pat u = findFirst pat v := by
  intro u
  induction u with
  | nil =>
    intro v h
    cases v with
    | nil => rfl
    | cons y v' => simp at h
  | cons x u' ih =>
    intro v h
    cases v with
    | nil => simp at h
    | cons y v' =>
      simp only [findFirst]
      rw [matchHere_toLower_congr pat (x :: u') (y :: v') h]
      cases matchHere pat (y :: v') with
      | some n => rfl
      | none =>
        simp only [List.map_cons, List.cons.injEq] at h
        rw [ih v' h.2]

theorem findAllFrom_toLower_congr (pat : List RTok) :
    ∀ (fuel : Nat) (u v : List Char) (pos : Nat),
      u.map Char.toLower = v.map Char.toLower →
      findAllFrom pat u fuel pos = findAllFrom pat v fuel pos := by
  intro fuel
  induction fuel with
  | zero => intro u v pos _; rfl
  | succ f ih =>
    intro u v pos h
    have hlen : u.length = v.length := by
      have := congrArg List.length h
      simpa using this
    simp only [findAllFrom]
    rw [hlen]
    rw [findFirst_toLower_congr pat (u.drop pos) (v.drop pos)
      (by rw [List.map_drop, List.map_drop, h])]
    cases findFirst pat (v.drop pos) with
    | none => rfl
    | some p =>
      obtain ⟨s, n⟩ := p
      by_cases hpos : pos > v.length
      · simp [hpos]
      · simp only [if_neg hpos]
        show (pos + s, n) :: findAllFrom pat u f (pos + s + max n 1)
            = (pos + s, n) :: findAllFrom pat v f (pos + s + max n 1)
        rw [ih u v (pos + s + max n 1) h]

theorem findAll_toLower_congr (pat : List RTok) (u v : List Char)
    (h : u.map Char.toLower = v.map Char.toLower) :
    findAll pat u = findAll pat v := by
  unfold findAll
  have hlen : u.length = v.length := by
    have := congrArg List.length h
    simpa using this
  rw [hlen]
  exact findAllFrom_toLower_congr pat (v.length + 1) u v 0 h

theorem sectionSpan_toLower_congr (sp ep : List RTok) (u v : List Char)
    (h : u.map Char.toLower = v.map Char.toLower) :
    sectionSpan sp ep u = sectionSpan sp ep v := by
  unfold sectionSpan
  rw [findAll_toLower_congr sp u v h]
  cases (findAll sp v).getLast? with
  | none => rfl
  | some m =>
    show (match findFirst ep (u.drop m.1) with
          | some em => some (m.1, m.1 + em.1)
          | none => some (m.1, u.length)) =
        (match findFirst ep (v.drop m.1) with
          | some em => some (m.1, m.1 + em.1)
          | none => some (m.1, v.length))
    rw [findFirst_toLower_congr ep (u.drop m.1) (v.drop m.1)
      (by rw [List.map_drop, List.map_drop, h])]
    have hlen : u.length = v.length := by
      have := congrArg List.length h
      simpa using this
    rw [hlen]

theorem extract_keys_toLower_congr (u v : List Char)
    (h : u.map Char.toLower = v.map Char.toLower) :
    (extract_sections u).map Prod.fst = (extract_sections v).map Prod.fst := by
  rw [extract_sections_keys, extract_sections_keys]
  congr 1
  apply List.filter_congr
  intro e _
  rw [sectionSpan_toLower_congr e.1 e.2.2 u v h]

/-! ### The region matched by a start pattern ends in a non-space character -/


theorem segEndOK_litsL {s : List Char} (hne : s ≠ [])
    (hc : s.all (fun c => !(isPySpace c.toLower)) = true) : SegEndOK (litsL s) := by
  intro u m h
  rw [← List.append_nil (litsL s)] at h
  obtain ⟨a, t, m₀, rfl, hf, hm₀, rfl⟩ := matchHere_litsL_some s h
  rw [matchHere_nil_some hm₀]
  have hane : a ≠ [] := by
    intro hnil
    have hlen := List.Forall₂.length_eq hf
    rw [hnil] at hlen
    simp only [List.length_nil] at hlen
    exact hne (List.length_eq_zero.mp hlen.symm)
  have htake : (a ++ t).take (a.length + 0) = a := by
    rw [List.take_append]
    simp
  rw [htake]
  refine ⟨hane, ?_⟩
  intro x hx
  rw [List.getLast?_eq_some_iff] at hx
  obtain ⟨a', rfl⟩ := hx
  obtain ⟨s₁, s₂, rfl, hf₁, hf₂⟩ := forall₂_append_decomp a' [x] _ hf
  rw [List.forall₂_cons_left_iff] at hf₂
  obtain ⟨c, s₂', hxc, hnil₂, rfl⟩ := hf₂
  have hcmem : c ∈ s₁ ++ c :: s₂' := by simp
  have := List.all_eq_true.mp hc _ hcmem
  simp only [Bool.not_eq_true'] at this
  exact not_pySpace_of_toLower hxc this

theorem segEndOK_litsL_prepend {s : List Char} {R : List RTok} (hR : SegEndOK R) :
    SegEndOK (litsL s ++ R) := by
  intro u m h
  obtain ⟨a, t, m', rfl, hf, hm, rfl⟩ := matchHere_litsL_some s h
  rw [List.take_append]
  obtain ⟨hne, hlast⟩ := hR t m' hm
  refine ⟨by simp [hne], ?_⟩
  intro x hx
  rw [List.getLast?_append_of_ne_nil a hne] at hx
  exact hlast x hx

theorem segEndOK_star {cls : CClass} {R : List RTok} (hR : SegEndOK R) :
    SegEndOK (RTok.star cls :: R) := by
  intro u m h
  obtain ⟨k, m', _, _, hm, rfl⟩ := matchHere_star_some h
  rw [List.take_add]
  obtain ⟨hne, hlast⟩ := hR _ m' hm
  refine ⟨by simp [hne], ?_⟩
  intro x hx
  rw [List.getLast?_append_of_ne_nil _ hne] at hx
  exact hlast x hx

theorem segEndOK_plus {cls : CClass} {R : List RTok} (hR : SegEndOK R) :
    SegEndOK (RTok.plus cls :: R) := by
  intro u m h
  obtain ⟨k, m', _, _, _, hm, rfl⟩ := matchHere_plus_some h
  rw [List.take_add]
  obtain ⟨hne, hlast⟩ := hR _ m' hm
  refine ⟨by simp [hne], ?_⟩
  intro x hx
  rw [List.getLast?_append_of_ne_nil _ hne] at hx
  exact hlast x hx

theorem patterns_endOK : ∀ e ∈ patterns, SegEndOK e.1 := by
  intro e he
  simp only [patterns, List.mem_cons, List.not_mem_nil, or_false] at he
  rcases he with rfl | rfl | rfl | rfl | rfl
  · exact show SegEndOK (litsL "item".toList ++ (RTok.plus CClass.ws ::
      (litsL "1".toList ++ (RTok.star CClass.dot :: RTok.star CClass.ws ::
        litsL "business".toList)))) from
      segEndOK_litsL_prepend (segEndOK_plus (segEndOK_litsL_prepend (segEndOK_star
        (segEndOK_star (segEndOK_litsL (by decide) (by decide))))))
  · exact show SegEndOK (litsL "item".toList ++ (RTok.plus CClass.ws ::
      (litsL "1a".toList ++ (RTok.star CClass.dot :: RTok.star CClass.ws ::
        (litsL "risk".toList ++ (RTok.star CClass.ws :: litsL "factors".toList)))))) from
      segEndOK_litsL_prepend (segEndOK_plus (segEndOK_litsL_prepend (segEndOK_star
        (segEndOK_star (segEndOK_litsL_prepend (segEndOK_star
          (segEndOK_litsL (by decide) (by decide))))))))
  · exact show SegEndOK (litsL "item".toList ++ (RTok.plus CClass.ws ::
      (litsL "7".toList ++ (RTok.star CClass.dot :: RTok.star CClass.ws ::
        litsL "management".toList)))) from
      segEndOK_litsL_prepend (segEndOK_plus (segEndOK_litsL_prepend (segEndOK_star
        (segEndOK_star (segEndOK_litsL (by decide) (by decide))))))
  · exact show SegEndOK (litsL "item".toList ++ (RTok.plus CClass.ws ::
      litsL "7a".toList)) from
      segEndOK_litsL_prepend (segEndOK_plus (segEndOK_litsL (by decide) (by decide)))
  · exact show SegEndOK (litsL "item".toList ++ (RTok.plus CClass.ws ::
      litsL "8".toList)) from
      segEndOK_litsL_prepend (segEndOK_plus (segEndOK_litsL (by decide) (by decide)))

/-! ### Lookup helpers -/

theorem assoc_nodup_unique :
    ∀ (L : List (String × List Char)), (L.map Prod.fst).Nodup →
      ∀ {a : String} {b c : List Char}, (a, b) ∈ L → (a, c) ∈ L → b = c := by
  intro L
  induction L with
  | nil =>
    intro _ a b c hb _
    simp at hb
  | cons kv L' ih =>
    intro hnodup a b c hb hc
    simp only [List.map_cons, List.nodup_cons] at hnodup
    obtain ⟨hnotin, hnodup'⟩ := hnodup
    rcases List.mem_cons.mp hb with rfl | hb'
    · rcases List.mem_cons.mp hc with hh | hc'
      · exact (Prod.mk.injEq _ _ _ _ ▸ hh.symm).2
      · exfalso
        exact hnotin (by simpa using List.mem_map_of_mem Prod.fst hc')
    · rcases List.mem_cons.mp hc with rfl | hc'
      · exfalso
        exact hnotin (by simpa using List.mem_map_of_mem Prod.fst hb')
      · exact ih hnodup' hb' hc'

/-- Distinct canonical names identify their table entry. -/
theorem patterns_name_inj :
    ∀ e ∈ patterns, ∀ e' ∈ patterns, e.2.1 = e'.2.1 → e = e' := by
  intro e he e' he'
  simp only [patterns, List.mem_cons, List.not_mem_nil, or_false] at he he'
  rcases he with rfl | rfl | rfl | rfl | rfl <;>
    rcases he' with rfl | rfl | rfl | rfl | rfl <;>
      intro h <;> first | rfl | exact absurd h (by decide)

/-! ### Claim theorems -/

/-- C1: when a section's start pattern has at least one match, the selected
start offset is the start of the *last* match: the span starts there, every
earlier match of the scan lies strictly to its left, and no match of the
start pattern begins anywhere to its right. -/
theorem extract_selects_last_match (sp : List RTok) (name : String) (ep : List RTok)
    (text : List Char) (ms : List (Nat × Nat)) (m : Nat × Nat)
    (hmem : (sp, name, ep) ∈ patterns)
    (h : findAll sp text = ms ++ [m]) :
    (∃ e, sectionSpan sp ep text = some (m.1, e)) ∧
    (∀ q ∈ ms, q.1 < m.1) ∧
    (∀ q n', matchHere sp (text.drop q) = some n' → q ≤ m.1) := by
  have hnil : matchHere sp [] = none := (patterns_nil_none _ hmem).1
  have hlast := findAllFrom_last hnil (text.length + 1) 0 ms m (by omega) h
  obtain ⟨hm_match, hnone_after, hsorted⟩ := hlast
  have hgl : (findAll sp text).getLast? = some m := by
    rw [h]
    exact List.getLast?_concat _
  refine ⟨?_, hsorted, ?_⟩
  · unfold sectionSpan
    rw [hgl]
    show ∃ e, (match findFirst ep (text.drop m.1) with
          | some em => some (m.1, m.1 + em.1)
          | none => some (m.1, text.length)) = some (m.1, e)
    cases hf : findFirst ep (text.drop m.1) with
    | some em => exact ⟨m.1 + em.1, rfl⟩
    | none => exact ⟨text.length, rfl⟩
  · intro q n' hq
    by_contra hgt
    push_neg at hgt
    have hbody : BodyShape sp := bodyShape_patterns _ hmem
    obtain ⟨h2n, hlen, _, _⟩ := hbody _ _ hm_match
    by_cases hlt : q < m.1 + m.2
    · have hblock := interior_no_match hbody (headShape_patterns _ hmem).1 hm_match
        (show 1 ≤ q - m.1 by omega) (show q - m.1 < m.2 by omega)
      have hr : m.1 + (q - m.1) = q := by omega
      rw [hr] at hblock
      rw [hblock] at hq
      exact Option.noConfusion hq
    · have hmax : max m.2 1 = m.2 := by omega
      rw [hmax] at hnone_after
      have hnomatch := findFirst_none _ hnone_after (q - (m.1 + m.2))
      rw [List.drop_drop] at hnomatch
      have hq' : m.1 + m.2 + (q - (m.1 + m.2)) = q := by omega
      rw [hq'] at hnomatch
      rw [hnomatch] at hq
      exact Option.noConfusion hq

/-- Witness for C1 on a text containing a table-of-contents occurrence and a
body occurrence of the Business heading. -/
theorem extract_selects_last_match_witness :
    (∃ e, sectionSpan startBusiness endBusiness
        "item 1. business toc item 1 business body".toList = some (21, e)) ∧
    (∀ q ∈ [((0 : Nat), (16 : Nat))], q.1 < 21) ∧
    (∀ q n', matchHere startBusiness
        ("item 1. business toc item 1 business body".toList.drop q) = some n' →
        q ≤ 21) :=
  extract_selects_last_match startBusiness "Business" endBusiness
    "item 1. business toc item 1 business body".toList [(0, 16)] (21, 15)
    (by decide) (by decide)

/-- C2: an entry whose start pattern has no match contributes no key to the
result mapping. -/
theorem missing_section_absent (sp : List RTok) (name : String) (ep : List RTok)
    (text : List Char)
    (hmem : (sp, name, ep) ∈ patterns)
    (hno : findAll sp text = []) :
    name ∉ (extract_sections text).map Prod.fst := by
  intro hin
  rw [extract_sections_keys] at hin
  simp only [List.mem_map] at hin
  obtain ⟨e, he, hename⟩ := hin
  rw [List.mem_filter] at he
  obtain ⟨hepat, hesome⟩ := he
  have hene : findAll e.1 text ≠ [] := (sectionSpan_isSome_iff _ _ _).mp hesome
  have heq : e = (sp, name, ep) := patterns_name_inj e hepat (sp, name, ep) hmem hename
  rw [heq] at hene
  exact hene hno

/-- Witness for C2: a pattern-free text stores nothing under "Business". -/
theorem missing_section_absent_witness :
    "Business" ∉ (extract_sections "quarterly report".toList).map Prod.fst :=
  missing_section_absent startBusiness "Business" endBusiness "quarterly report".toList
    (by decide) (by decide)

/-- C3: if the start pattern matched, a missing end-pattern match makes the
section run to the end of the text (and that section is stored), while an
end-pattern match at relative offset `em.1` makes the end offset
`start + em.1`. -/
theorem end_pattern_behavior (sp : List RTok) (name : String) (ep : List RTok)
    (text : List Char) (m : Nat × Nat)
    (hmem : (sp, name, ep) ∈ patterns)
    (hlast : (findAll sp text).getLast? = some m) :
    (findFirst ep (text.drop m.1) = none →
      sectionSpan sp ep text = some (m.1, text.length) ∧
      (name, pyStrip (text.drop m.1)) ∈ extract_sections text) ∧
    (∀ em, findFirst ep (text.drop m.1) = some em →
      sectionSpan sp ep text = some (m.1, m.1 + em.1)) := by
  constructor
  · intro hnone
    have hspan : sectionSpan sp ep text = some (m.1, text.length) := by
      unfold sectionSpan
      rw [hlast]
      show (match findFirst ep (text.drop m.1) with
            | some em => some (m.1, m.1 + em.1)
            | none => some (m.1, text.length)) = some (m.1, text.length)
      rw [hnone]
    refine ⟨hspan, ?_⟩
    rw [extract_sections_mem]
    refine ⟨(sp, name, ep), hmem, rfl, m.1, text.length, hspan, ?_⟩
    rw [List.take_length]
  · intro em hsome
    unfold sectionSpan
    rw [hlast]
    show (match findFirst ep (text.drop m.1) with
          | some em => some (m.1, m.1 + em.1)
          | none => some (m.1, text.length)) = some (m.1, m.1 + em.1)
    rw [hsome]

/-- Witness for C3: "item 8" matches but "item 9" never does, so the section
runs to the end of the text and is stored. -/
theorem end_pattern_behavior_witness :
    sectionSpan startFin endFin "x item 8 statements".toList = some (2, 19) ∧
    ("Financial Statements", pyStrip ("x item 8 statements".toList.drop 2))
      ∈ extract_sections "x item 8 statements".toList :=
  (end_pattern_behavior startFin "Financial Statements" endFin
    "x item 8 statements".toList (2, 6) (by decide) (by decide)).1 (by decide)

/-- C4: every entry actually stored corresponds to a span with
`0 ≤ start < end ≤ len(text)` (the lower bound is inherent to `Nat`), and the
stored value is the whitespace-trimmed slice `text[start:end]`. -/
theorem extracted_span_invariant (text : List Char) (name : String) (v : List Char)
    (h : (name, v) ∈ extract_sections text) :
    ∃ sp ep s e, (sp, name, ep) ∈ patterns ∧ sectionSpan sp ep text = some (s, e) ∧
      s < e ∧ e ≤ text.length ∧ v = pyStrip ((text.take e).drop s) := by
  rw [extract_sections_mem] at h
  obtain ⟨e₀, hmem, hname, s, en, hspan, hv⟩ := h
  obtain ⟨sp, name₀, ep⟩ := e₀
  simp only at hname
  subst hname
  have hbounds : s < en ∧ en ≤ text.length := by
    cases hgl : (findAll sp text).getLast? with
    | none =>
      exfalso
      have hnone : sectionSpan sp ep text = none := by
        unfold sectionSpan
        rw [hgl]
      rw [hnone] at hspan
      exact Option.noConfusion hspan
    | some m =>
      have hm_mem : m ∈ findAllFrom sp text (text.length + 1) 0 :=
        List.mem_of_getLast?_eq_some hgl
      obtain ⟨_, hmle, hmatch⟩ := findAllFrom_sound (text.length + 1) 0 m hm_mem
      have h2n : 2 ≤ m.2 := (bodyShape_patterns _ hmem _ _ hmatch).1
      have hlen' := matchHere_le sp _ _ hmatch
      rw [List.length_drop] at hlen'
      have hspan' : (match findFirst ep (text.drop m.1) with
            | some em => some (m.1, m.1 + em.1)
            | none => some (m.1, text.length)) = some (s, en) := by
        rw [← hspan]
        unfold sectionSpan
        rw [hgl]
      cases hf : findFirst ep (text.drop m.1) with
      | some em =>
        rw [hf] at hspan'
        simp only [Option.some.injEq, Prod.mk.injEq] at hspan'
        obtain ⟨rfl, rfl⟩ := hspan'
        obtain ⟨hemle, hepmatch⟩ := findFirst_sound _ hf
        rw [List.length_drop] at hemle
        have hem1 : 1 ≤ em.1 := by
          by_contra hz
          push_neg at hz
          have hz0 : em.1 = 0 := by omega
          rw [hz0, List.drop_zero] at hepmatch
          exact patterns_excl _ hmem (text.drop m.1) m.2 em.2 hmatch hepmatch
        omega
      | none =>
        rw [hf] at hspan'
        simp only [Option.some.injEq, Prod.mk.injEq] at hspan'
        obtain ⟨rfl, rfl⟩ := hspan'
        omega
  exact ⟨sp, ep, s, en, hmem, hspan, hbounds.1, hbounds.2, hv⟩

/-- Witness for C4 at a concrete stored section. -/
theorem extracted_span_invariant_witness :
    ∃ sp ep s e, (sp, "Financial Statements", ep) ∈ patterns ∧
      sectionSpan sp ep "ab item 8 xyz".toList = some (s, e) ∧
      s < e ∧ e ≤ "ab item 8 xyz".toList.length ∧
      "item 8 xyz".toList = pyStrip (("ab item 8 xyz".toList.take e).drop s) :=
  extracted_span_invariant "ab item 8 xyz".toList "Financial Statements"
    "item 8 xyz".toList (by decide)

/-- C5: the empty string, or any text where no start pattern matches, yields
the empty mapping (a value, not an error). -/
theorem extract_empty_on_no_match :
    extract_sections [] = [] ∧
    ∀ text : List Char, (∀ e ∈ patterns, findAll e.1 text = []) →
      extract_sections text = [] := by
  constructor
  · decide
  · intro text hall
    have hkeys := extract_sections_keys text
    have hfilter : patterns.filter (fun e => (sectionSpan e.1 e.2.2 text).isSome) = [] := by
      rw [List.filter_eq_nil_iff]
      intro e he
      rw [(sectionSpan_none_iff e.1 e.2.2 text).mpr (hall e he)]
      simp
    rw [hfilter] at hkeys
    have hkeys' : (extract_sections text).map Prod.fst = [] := by simpa using hkeys
    exact List.map_eq_nil_iff.mp hkeys'

/-- Witness for C5: a pattern-free text maps to the empty result. -/
theorem extract_empty_on_no_match_witness :
    extract_sections "xyz".toList = [] :=
  extract_empty_on_no_match.2 "xyz".toList (by decide)

/-- C6: matching depends only on the lowercased text — for a single pattern,
for the computed spans, and for the set of stored keys — and the Business
start pattern accepts both "Item 1. Business" and "ITEM 1 BUSINESS". -/
theorem case_insensitive_matching :
    (∀ (ps : List RTok) (u v : List Char),
        u.map Char.toLower = v.map Char.toLower → matchHere ps u = matchHere ps v) ∧
    (∀ (sp ep : List RTok) (u v : List Char),
        u.map Char.toLower = v.map Char.toLower →
        sectionSpan sp ep u = sectionSpan sp ep v) ∧
    (∀ u v : List Char, u.map Char.toLower = v.map Char.toLower →
        (extract_sections u).map Prod.fst = (extract_sections v).map Prod.fst) ∧
    matchHere startBusiness "Item 1. Business".toList = some 16 ∧
    matchHere startBusiness "ITEM 1 BUSINESS".toList = some 15 :=
  ⟨matchHere_toLower_congr, sectionSpan_toLower_congr, extract_keys_toLower_congr,
    by decide, by decide⟩

/-- Witness for C6 at a concrete pair of texts differing only in case. -/
theorem case_insensitive_matching_witness :
    matchHere startRisk "ITEM 1A. RISK FACTORS".toList
      = matchHere startRisk "item 1a. risk factors".toList :=
  case_insensitive_matching.1 startRisk "ITEM 1A. RISK FACTORS".toList
    "item 1a. risk factors".toList (by decide)

/-- C7: the requested-section lookup lowers all keys and the requested name:
it fails exactly when no stored key lowercases to the lowercased request, and
(with the keys' lowercasings distinct, as they are for the five canonical
names) any request whose lowercasing equals a stored key's lowercasing
resolves to that entry's value. -/
theorem lookup_case_insensitive :
    (∀ (sections : List (String × List Char)) (req : String),
        lookup_section sections req = none ↔
          ∀ kv ∈ sections, ¬ pyLower kv.1 = pyLower req) ∧
    (∀ (sections : List (String × List Char)) (k : String) (v : List Char)
        (req : String),
        (sections.map (fun kv => pyLower kv.1)).Nodup →
        (k, v) ∈ sections → pyLower req = pyLower k →
        lookup_section sections req = some v) := by
  constructor
  · intro sections req
    unfold lookup_section pyDictGet
    rw [Option.map_eq_none']
    rw [List.find?_eq_none]
    constructor
    · intro h kv hkv heq
      refine h (pyLower kv.1, kv.2) ?_ ?_
      · rw [List.mem_reverse, List.mem_map]
        exact ⟨kv, hkv, rfl⟩
      · simp only [beq_iff_eq]
        exact heq
    · intro hall x hx
      rw [List.mem_reverse, List.mem_map] at hx
      obtain ⟨kv, hkv, rfl⟩ := hx
      simp only [beq_iff_eq]
      exact hall kv hkv
  · intro sections k v req hnodup hmem hreq
    unfold lookup_section pyDictGet
    have hmemL : (pyLower k, v) ∈ (sections.map fun kv => (pyLower kv.1, kv.2)).reverse := by
      rw [List.mem_reverse, List.mem_map]
      exact ⟨(k, v), hmem, rfl⟩
    have hsome : ((sections.map fun kv => (pyLower kv.1, kv.2)).reverse.find?
        (fun kv => kv.1 == pyLower req)).isSome := by
      rw [List.find?_isSome]
      exact ⟨(pyLower k, v), hmemL, by simp [hreq.symm]⟩
    obtain ⟨x, hx⟩ := Option.isSome_iff_exists.mp hsome
    have hxmem := List.mem_of_find?_eq_some hx
    have hxp := List.find?_some hx
    rw [beq_iff_eq] at hxp
    rw [List.mem_reverse, List.mem_map] at hxmem
    obtain ⟨kv, hkv, hkveq⟩ := hxmem
    have hkeys : ((sections.map fun kv => (pyLower kv.1, kv.2)).map Prod.fst).Nodup := by
      rw [List.map_map]
      exact hnodup
    have hx1 : x = (pyLower k, kv.2) := by
      rw [← hkveq]
      rw [← hkveq] at hxp
      simp only at hxp
      rw [hxp, hreq]
    have hkv2 : kv.2 = v := by
      apply assoc_nodup_unique _ hkeys
      · rw [hx1] at hx
        have := List.mem_of_find?_eq_some hx
        rw [List.mem_reverse] at this
        exact this
      · rw [List.mem_map]
        exact ⟨(k, v), hmem, rfl⟩
    rw [hx, hx1, hkv2]
    rfl

/-- Witness for C7: the entry stored under "Risk Factors" is found when
requesting "RISK FACTORS". -/
theorem lookup_case_insensitive_witness :
    lookup_section [("Risk Factors", "body".toList)] "RISK FACTORS"
      = some "body".toList :=
  lookup_case_insensitive.2 [("Risk Factors", "body".toList)] "Risk Factors"
    "body".toList "RISK FACTORS" (by decide) (by decide) (by decide)

/-- C8: `extract_sections` is total and processes all five entries in order,
each independently: the key list is exactly the canonical names of the
entries whose start pattern matches, in specification order. -/
theorem entries_processed_independently (text : List Char) :
    (extract_sections text).map Prod.fst =
      (patterns.filter (fun e => !(findAll e.1 text).isEmpty)).map (fun e => e.2.1) := by
  rw [extract_sections_keys]
  congr 1
  apply List.filter_congr
  intro e _
  cases hf : findAll e.1 text with
  | nil =>
    rw [(sectionSpan_none_iff e.1 e.2.2 text).mpr hf]
    rfl
  | cons a l =>
    have hs : (sectionSpan e.1 e.2.2 text).isSome = true :=
      (sectionSpan_isSome_iff _ _ _).mpr (by rw [hf]; simp)
    rw [hs]
    rfl

/-- C9: whenever an entry's span is computed, the entry is stored under its
canonical name with the trimmed (possibly empty) slice as value — there is no
emptiness or whitespace check guarding the insertion. -/
theorem stored_even_if_blank (sp : List RTok) (name : String) (ep : List RTok)
    (text : List Char) (s e : Nat)
    (hmem : (sp, name, ep) ∈ patterns)
    (hspan : sectionSpan sp ep text = some (s, e)) :
    (name, pyStrip ((text.take e).drop s)) ∈ extract_sections text := by
  rw [extract_sections_mem]
  exact ⟨(sp, name, ep), hmem, rfl, s, e, hspan, rfl⟩

/-- Witness for C9 at a concrete span. -/
theorem stored_even_if_blank_witness :
    ("Financial Statements", pyStrip (("q item 8 w".toList.take 10).drop 2))
      ∈ extract_sections "q item 8 w".toList :=
  stored_even_if_blank startFin "Financial Statements" endFin "q item 8 w".toList
    2 10 (by decide) (by decide)

/-- Stripping whitespace from `w ++ z` keeps `w` as a prefix when `w` is
nonempty and starts and ends with non-space characters. -/
theorem pyStrip_of_headTail {w z : List Char}
    (hwne : w ≠ [])
    (hhead : ∀ x, w.head? = some x → isPySpace x = false)
    (hlast : ∀ x, w.getLast? = some x → isPySpace x = false) :
    ∃ z', pyStrip (w ++ z) = w ++ z' := by
  unfold pyStrip
  obtain ⟨x, w', rfl⟩ : ∃ x w', w = x :: w' := by
    cases w with
    | nil => exact absurd rfl hwne
    | cons a b => exact ⟨a, b, rfl⟩
  have hx : isPySpace x = false := hhead x rfl
  rw [List.cons_append, List.dropWhile_cons, hx]
  simp only [Bool.false_eq_true, if_false]
  rw [show x :: (w' ++ z) = (x :: w') ++ z from rfl]
  rw [List.reverse_append]
  rw [List.dropWhile_append]
  by_cases hemp : ((z.reverse).dropWhile isPySpace).isEmpty
  · rw [if_pos hemp]
    obtain ⟨c, rest, hrev⟩ : ∃ c rest, (x :: w').reverse = c :: rest := by
      cases hh : (x :: w').reverse with
      | nil => exact absurd hh (by simp)
      | cons a b => exact ⟨a, b, rfl⟩
    have hc : isPySpace c = false := by
      apply hlast
      rw [← List.head?_reverse, hrev]
      rfl
    rw [hrev, List.dropWhile_cons, hc]
    simp only [Bool.false_eq_true, if_false]
    rw [← hrev, List.reverse_reverse]
    exact ⟨[], by simp⟩
  · rw [if_neg hemp]
    rw [List.reverse_append, List.reverse_reverse]
    exact ⟨(z.reverse.dropWhile isPySpace).reverse, rfl⟩

/-- C10: every stored value is non-empty and begins with the text of the
matched start heading itself. -/
theorem section_starts_with_heading (text : List Char) (name : String) (v : List Char)
    (h : (name, v) ∈ extract_sections text) :
    v ≠ [] ∧ ∃ sp ep s e n, (sp, name, ep) ∈ patterns ∧
      sectionSpan sp ep text = some (s, e) ∧
      matchHere sp (text.drop s) = some n ∧
      ∃ rest, v = (text.drop s).take n ++ rest := by
  rw [extract_sections_mem] at h
  obtain ⟨e₀, hmem, hname, s, en, hspan, hv⟩ := h
  obtain ⟨sp, name₀, ep⟩ := e₀
  simp only at hname
  subst hname
  cases hgl : (findAll sp text).getLast? with
  | none =>
    exfalso
    have hnone : sectionSpan sp ep text = none := by
      unfold sectionSpan
      rw [hgl]
    rw [hnone] at hspan
    exact Option.noConfusion hspan
  | some m =>
    have hm_mem : m ∈ findAllFrom sp text (text.length + 1) 0 :=
      List.mem_of_getLast?_eq_some hgl
    obtain ⟨_, hmle, hmatch⟩ := findAllFrom_sound (text.length + 1) 0 m hm_mem
    have hbody : BodyShape sp := bodyShape_patterns _ hmem
    obtain ⟨h2n, hlenn, _, _⟩ := hbody _ _ hmatch
    rw [List.length_drop] at hlenn
    have hspan' : (match findFirst ep (text.drop m.1) with
          | some em => some (m.1, m.1 + em.1)
          | none => some (m.1, text.length)) = some (s, en) := by
      rw [← hspan]
      unfold sectionSpan
      rw [hgl]
    have hsen : s = m.1 ∧ m.1 + m.2 ≤ en := by
      cases hf : findFirst ep (text.drop m.1) with
      | some em =>
        rw [hf] at hspan'
        simp only [Option.some.injEq, Prod.mk.injEq] at hspan'
        obtain ⟨h1, h2⟩ := hspan'
        obtain ⟨hemle, hepmatch⟩ := findFirst_sound _ hf
        have hemn : m.2 ≤ em.1 := by
          by_contra hlt
          push_neg at hlt
          have hem1 : 1 ≤ em.1 := by
            by_contra hz
            push_neg at hz
            have hz0 : em.1 = 0 := by omega
            rw [hz0, List.drop_zero] at hepmatch
            exact patterns_excl _ hmem (text.drop m.1) m.2 em.2 hmatch hepmatch
          have hblock := interior_no_match hbody (headShape_patterns _ hmem).2 hmatch
            hem1 hlt
          rw [List.drop_drop] at hepmatch
          rw [hblock] at hepmatch
          exact Option.noConfusion hepmatch
        exact ⟨h1.symm, by omega⟩
      | none =>
        rw [hf] at hspan'
        simp only [Option.some.injEq, Prod.mk.injEq] at hspan'
        obtain ⟨h1, h2⟩ := hspan'
        exact ⟨h1.symm, by omega⟩
    obtain ⟨rfl, hen⟩ := hsen
    have hslice : (text.take en).drop m.1 = (text.drop m.1).take (en - m.1) := by
      rw [List.drop_take]
    obtain ⟨x, y, t, hxyt, hx, hyt⟩ := (headShape_patterns _ hmem).1 _ _ hmatch
    have htake2 : en - m.1 = m.2 + (en - m.1 - m.2) := by omega
    have hsplit : (text.drop m.1).take (en - m.1) =
        (text.drop m.1).take m.2 ++ ((text.drop m.1).drop m.2).take (en - m.1 - m.2) := by
      rw [htake2, List.take_add]
      congr 2
      omega
    have hxns : isPySpace x = false := not_pySpace_of_toLower hx (by decide)
    obtain ⟨hwne, hwlast⟩ := patterns_endOK _ hmem (text.drop m.1) m.2 hmatch
    have hwhead : ∀ c, ((text.drop m.1).take m.2).head? = some c → isPySpace c = false := by
      intro c hc
      obtain ⟨k2, hk2⟩ : ∃ k2, m.2 = k2 + 2 := ⟨m.2 - 2, by omega⟩
      rw [hxyt, hk2, List.take_succ_cons] at hc
      simp only [List.head?_cons, Option.some.injEq] at hc
      rw [← hc]
      exact hxns
    obtain ⟨z', hz'⟩ := pyStrip_of_headTail hwne hwhead hwlast
      (z := ((text.drop m.1).drop m.2).take (en - m.1 - m.2))
    rw [hslice, hsplit, hz'] at hv
    refine ⟨?_, sp, ep, m.1, en, m.2, hmem, hspan, hmatch, z', hv⟩
    rw [hv]
    simp [hwne]

/-- Witness for C10: the stored Business section begins with the matched
heading "item 1 business". -/
theorem section_starts_with_heading_witness :
    "item 1 business body".toList ≠ [] ∧
    ∃ sp ep s e n, (sp, "Business", ep) ∈ patterns ∧
      sectionSpan sp ep "toc item 1. business x item 1 business body".toList
        = some (s, e) ∧
      matchHere sp ("toc item 1. business x item 1 business body".toList.drop s)
        = some n ∧
      ∃ rest, "item 1 business body".toList =
        ("toc item 1. business x item 1 business body".toList.drop s).take n ++ rest :=
  section_starts_with_heading "toc item 1. business x item 1 business body".toList
    "Business" "item 1 business body".toList (by decide)
